import Mathlib

/-!
Segmentation of annotated source files (`tools/generate.go`).

A shallow embedding of the line classifier and of the segmenter `parseSegs`
of `tools/generate.go`, followed by theorems about them.

Go strings are modelled as lists of characters, the slice `[]*Seg` as a list
of segment values (every `&newSeg` is a fresh allocation, so no two entries of
the slice alias), and the run-time panic of an out-of-range index as `none`.
-/

namespace GoByExample

/-! ## Strings and the two regular expressions -/

/-- A Go string, as the list of its characters. -/
abbrev Str := List Char

/-- The class `\s` of Go's `regexp` package, which is `[\t\n\f\r ]`. -/
def isSpace (c : Char) : Bool :=
  c == '\t' || c == '\n' || c == '\x0c' || c == '\r' || c == ' '

/-- Substring search: `hasSub pat s` holds when `pat` occurs somewhere in `s`. -/
def hasSub (pat : Str) : Str → Bool
  | [] => pat.isEmpty
  | c :: cs => pat.isPrefixOf (c :: cs) || hasSub pat cs

/-- The literal text of `todoPat = regexp.MustCompile("\\/\\/ todo: ")`. -/
def todoText : Str := "// todo: ".toList

/-- `todoPat.MatchString(line)`: the pattern is a literal without anchors, so it
matches when the literal occurs anywhere in the line. -/
def todoPatMatchString (line : Str) : Bool := hasSub todoText line

/-- The text that follows the match of
`docsPat = regexp.MustCompile("^\\s*(\\/\\/|#)\\s")` in `line`, when there is a
match.  The pattern is anchored at the start of the text; `\s*` has to consume
the whole run of leading whitespace, because neither `/` nor `#` is whitespace;
then comes `//` or `#`, then exactly one whitespace character. -/
def docsPatRest (line : Str) : Option Str :=
  match line.dropWhile isSpace with
  | '/' :: '/' :: c :: rest => if isSpace c then some rest else none
  | '#' :: c :: rest => if isSpace c then some rest else none
  | _ => none

/-- `docsPat.MatchString(line)`. -/
def docsPatMatchString (line : Str) : Bool := (docsPatRest line).isSome

/-- `docsPat.ReplaceAllString(line, "")`: the pattern starts with `^`, so it has
at most one match, at the start of the line, and that match is removed; a line
without a match is returned unchanged. -/
def docsPatReplaceAllString (line : Str) : Str := (docsPatRest line).getD line

/-! ## Segments -/

/-- The struct `Seg`. -/
structure Seg where
  Docs : Str
  DocsRendered : Str
  Code : Str
  CodeRendered : Str
  CodeEmpty : Bool
  CodeLeading : Bool
deriving DecidableEq, Repr

/-- The values taken by the local variable `lastSeen` of `parseSegs`:
`""`, `"docs"` and `"code"`. -/
inductive LastSeen where
  | empty
  | docs
  | code
deriving DecidableEq, Repr

/-- The composite literal `Seg{Docs: docs, Code: code}`; the fields that are not
named get their zero value. -/
def mkSeg (docs code : Str) : Seg :=
  { Docs := docs, DocsRendered := [], Code := code, CodeRendered := [],
    CodeEmpty := false, CodeLeading := false }

/-- The expression `segs[len(segs)-1]`, which panics on an empty slice. -/
def lastSeg (segs : List Seg) : Option Seg := segs.getLast?

/-- The assignment through `segs[len(segs)-1]`: the last entry becomes `s`. -/
def setLast (segs : List Seg) (s : Seg) : List Seg := segs.dropLast ++ [s]

/-- The value of `newDocs`; `||` and `&&` evaluate their right operand only when
they need it, so the slice is indexed only when `lastSeen` is `"code"`. -/
def newDocs (segs : List Seg) (lastSeen : LastSeen) : Option Bool :=
  if lastSeen = LastSeen.empty then some true
  else if lastSeen ≠ LastSeen.docs then
    (lastSeg segs).map (fun s => decide (s.Docs ≠ []))
  else some false

/-- The value of `newCode`, the slice being indexed only when `lastSeen` is
`"docs"`. -/
def newCode (segs : List Seg) (lastSeen : LastSeen) : Option Bool :=
  if lastSeen = LastSeen.empty then some true
  else if lastSeen ≠ LastSeen.code then
    (lastSeg segs).map (fun s => decide (s.Code ≠ []))
  else some false

/-- One iteration of the scanning loop of `parseSegs` on the state
`(segs, lastSeen)`. -/
def scanLine (st : List Seg × LastSeen) (line : Str) : Option (List Seg × LastSeen) :=
  if line = [] then some (st.1, LastSeen.empty)
  else if todoPatMatchString line then some st
  else do
    let matchDocs := docsPatMatchString line
    let matchCode := !matchDocs
    let nd ← newDocs st.1 st.2
    let nc ← newCode st.1 st.2
    if matchDocs then
      let trimmed := docsPatReplaceAllString line
      if nd then
        some (st.1 ++ [mkSeg trimmed []], LastSeen.docs)
      else do
        let l ← lastSeg st.1
        some (setLast st.1 { l with Docs := l.Docs ++ '\n' :: trimmed }, LastSeen.docs)
    else if matchCode then
      if nc then
        some (st.1 ++ [mkSeg [] line], LastSeen.code)
      else do
        let l ← lastSeg st.1
        some (setLast st.1 { l with Code := l.Code ++ '\n' :: line }, LastSeen.code)
    else some st

/-- The scanning loop of `parseSegs`, started in the state `st`. -/
def scanLines (st : List Seg × LastSeen) (lines : List Str) : Option (List Seg × LastSeen) :=
  lines.foldlM scanLine st

/-- The body of the second loop of `parseSegs` for the segment at index `i` of a
slice of length `n`. -/
def setFlags (n : Nat) (i : Nat) (seg : Seg) : Seg :=
  { seg with CodeEmpty := decide (seg.Code = []),
             CodeLeading := decide ((i : Int) < (n : Int) - 1) }

/-- The second loop of `parseSegs`, which sets the two flags of every segment. -/
def postPass (segs : List Seg) : List Seg :=
  segs.enum.map (fun p => setFlags segs.length p.1 p.2)

/-- The function `parseSegs`, on the lines that `readLines(sourcePath)` returns. -/
def parseSegs (lines : List Str) : Option (List Seg) :=
  (scanLines ([], LastSeen.empty) lines).map (fun st => postPass st.1)

/-! ## The transitions of the scanning loop, case by case -/

/-- The states in which no index of the loop body is out of range: `lastSeen`
is `""` or the slice holds a segment. -/
def Ok (st : List Seg × LastSeen) : Prop := st.2 = LastSeen.empty ∨ st.1 ≠ []

/-- The six ways in which one line changes the state of the scanning loop. -/
inductive Trans : Str → List Seg × LastSeen → List Seg × LastSeen → Prop
  | blank (segs : List Seg) (ls : LastSeen) : Trans [] (segs, ls) (segs, LastSeen.empty)
  | skip (line : Str) (st : List Seg × LastSeen) :
      line ≠ [] → todoPatMatchString line = true → Trans line st st
  | docNew (line t : Str) (segs : List Seg) (ls : LastSeen) :
      line ≠ [] → todoPatMatchString line = false → docsPatRest line = some t →
      (ls = LastSeen.empty ∨ (ls = LastSeen.code ∧ ∃ pre l, segs = pre ++ [l] ∧ l.Docs ≠ [])) →
      Trans line (segs, ls) (segs ++ [mkSeg t []], LastSeen.docs)
  | docAdd (line t : Str) (pre : List Seg) (l : Seg) (ls : LastSeen) :
      line ≠ [] → todoPatMatchString line = false → docsPatRest line = some t →
      (ls = LastSeen.docs ∨ (ls = LastSeen.code ∧ l.Docs = [])) →
      Trans line (pre ++ [l], ls)
        (pre ++ [{ l with Docs := l.Docs ++ '\n' :: t }], LastSeen.docs)
  | codeNew (line : Str) (segs : List Seg) (ls : LastSeen) :
      line ≠ [] → todoPatMatchString line = false → docsPatRest line = none →
      (ls = LastSeen.empty ∨ (ls = LastSeen.docs ∧ ∃ pre l, segs = pre ++ [l] ∧ l.Code ≠ [])) →
      Trans line (segs, ls) (segs ++ [mkSeg [] line], LastSeen.code)
  | codeAdd (line : Str) (pre : List Seg) (l : Seg) (ls : LastSeen) :
      line ≠ [] → todoPatMatchString line = false → docsPatRest line = none →
      (ls = LastSeen.code ∨ (ls = LastSeen.docs ∧ l.Code = [])) →
      Trans line (pre ++ [l], ls)
        (pre ++ [{ l with Code := l.Code ++ '\n' :: line }], LastSeen.code)

/-- A run of the scanning loop over a list of lines, as a chain of transitions. -/
inductive Run : List Str → List Seg × LastSeen → List Seg × LastSeen → Prop
  | nil (st : List Seg × LastSeen) : Run [] st st
  | cons {line : Str} {lines : List Str} {st st1 st2 : List Seg × LastSeen} :
      Trans line st st1 → Run lines st1 st2 → Run (line :: lines) st st2

/-- The pair of raw texts `(Docs, Code)` of a segment. -/
def Seg.raw (s : Seg) : Str × Str := (s.Docs, s.Code)

/-- The six lines of the scenario of the specification. -/
def scenarioLines : List Str :=
  ["// Package main".toList, "package main".toList, [], "// Comment two".toList,
   "more code".toList, "code line 2".toList]

/-- The state invariant behind the alternation of segments on inputs without
an empty line: `lastSeen` is `""` only before the first segment, every segment
but the last holds both kinds of text, and the last one holds the kind seen
last (its `Docs` may be empty only while its `Code` is). -/
def AltInv (st : List Seg × LastSeen) : Prop :=
  (st.2 = LastSeen.empty → st.1 = []) ∧
  (∀ s ∈ st.1.dropLast, s.Docs ≠ [] ∧ s.Code ≠ []) ∧
  (∀ l, st.1.getLast? = some l →
    (st.2 = LastSeen.code → l.Code ≠ []) ∧
    (st.2 = LastSeen.docs → l.Code ≠ [] → l.Docs ≠ []))

/-- The lines that reach the classification: neither empty nor matched by
`todoPat`. -/
def isStored (line : Str) : Bool := decide (line ≠ []) && !todoPatMatchString line

/-- The text stored for a line that reaches the classification: a line matched
by `docsPat` is stored as `trimmed`, any other line as it is. -/
def storedText (line : Str) : Str :=
  if docsPatMatchString line then docsPatReplaceAllString line else line

/-- The stored texts, in input order, of the lines classified as documentation. -/
def docTexts (lines : List Str) : List Str :=
  (lines.filter (fun l => isStored l && docsPatMatchString l)).map storedText

/-- The stored texts, in input order, of the lines classified as code. -/
def codeTexts (lines : List Str) : List Str :=
  (lines.filter (fun l => isStored l && !docsPatMatchString l)).map storedText

/-- A text without its newline characters. -/
def removeNl (s : Str) : Str := s.filter (fun c => c != '\n')

/-- The documentation lines in the words of the specification: `line` is zero
or more whitespace characters, then `//` or `#`, then a whitespace character,
then the text `rest`. -/
def DocLineSpec (line rest : Str) : Prop :=
  ∃ ws m c, line = ws ++ m ++ c :: rest ∧ (∀ x ∈ ws, isSpace x = true) ∧
    (m = "//".toList ∨ m = "#".toList) ∧ isSpace c = true

/-! ## Rendering, the cache and the examples -/

/-- The call `strings.HasSuffix(s, suffix)`. -/
def hasSuffix (s suffix : Str) : Bool := suffix.isSuffixOf s

/-- The function `whichLexer`; `none` is its panic "No lexer for ...". -/
def whichLexer (path : Str) : Option Str :=
  if hasSuffix path ".go".toList then some "go".toList
  else if hasSuffix path ".sh".toList then some "console".toList
  else none

/-- The body of the loop of `parseAndRenderSegs` for one segment, `markdown`
and the call `cachedPygmentize(lexer, seg.Code)` being taken as functions. -/
def renderSeg (markdown : Str → Str) (highlight : Str → Str → Str) (lexer : Str)
    (seg : Seg) : Seg :=
  let seg1 := if seg.Docs ≠ [] then { seg with DocsRendered := markdown seg.Docs } else seg
  if seg1.Code ≠ [] then { seg1 with CodeRendered := highlight lexer seg1.Code } else seg1

/-- The function `parseAndRenderSegs`, on the path and on the lines that
`readLines(sourcePath)` returns.  The segments are parsed first, then the lexer
is looked up, as in the source. -/
def parseAndRenderSegs (markdown : Str → Str) (highlight : Str → Str → Str)
    (sourcePath : Str) (lines : List Str) : Option (List Seg) := do
  let segs ← parseSegs lines
  let lexer ← whichLexer sourcePath
  pure (segs.map (renderSeg markdown highlight lexer))

/-- The call `strings.Join(elems, sep)`. -/
def stringsJoin (elems : List Str) (sep : Str) : Str := sep.intercalate elems

/-- The variable `cacheDir`. -/
def cacheDir : Str := "/tmp/gobyexample-cache".toList

/-- The slice `arg` of `cachedPygmentize`. -/
def pygmentizeArg (lex : Str) : List Str := ["-l".toList, lex, "-f".toList, "html".toList]

/-- The value of `cachePath` in `cachedPygmentize`; `sha1Sum` stands for the
function of that name, which formats a SHA-1 digest in hexadecimal. -/
def cachePath (sha1Sum : Str → Str) (lex src : Str) : Str :=
  cacheDir ++ "/pygmentize-".toList ++ stringsJoin (pygmentizeArg lex) "-".toList
    ++ "-".toList ++ sha1Sum src

/-- What `cachedPygmentize` reads and writes: the files of the cache directory,
by path, and the number of runs of the external renderer so far. -/
structure Cache where
  files : Str → Option Str
  renders : Nat

/-- The function `cachedPygmentize` on an explicit cache.  `pipe bin arg src` is
the output of the external program, `ensureDir` and `ioutil.WriteFile` are taken
to succeed, and `ioutil.ReadFile` to fail exactly when the file is absent. -/
def cachedPygmentize (sha1Sum : Str → Str) (pipe : Str → List Str → Str → Str)
    (c : Cache) (lex src : Str) : Str × Cache :=
  let arg := pygmentizeArg lex
  let bin := "/usr/local/bin/pygmentize".toList
  let path := cachePath sha1Sum lex src
  match c.files path with
  | some cacheBytes => (cacheBytes, c)
  | none =>
    let renderBytes := pipe bin arg src
    (renderBytes,
      { files := fun p => if p = path then some renderBytes else c.files p,
        renders := c.renders + 1 })

/-- The mapping of `strings.ToLower` on one character: the letters `A` to `Z`
go to `a` to `z`, the other ASCII characters stay, and the characters outside
ASCII go through the case table `unicodeLower` of Go's `unicode` package. -/
def toLowerChar (unicodeLower : Char → Char) (c : Char) : Char :=
  if c.toNat < 128 then c.toLower else unicodeLower c

/-- The call `strings.ToLower(s)`. -/
def stringsToLower (unicodeLower : Char → Char) (s : Str) : Str :=
  s.map (toLowerChar unicodeLower)

/-- The scan of `strings.Replace`: `skip` counts the characters of a match that
are still to be passed over. -/
def replaceFrom (old new : Str) : Nat → Str → Str
  | _, [] => []
  | skip + 1, _ :: cs => replaceFrom old new skip cs
  | 0, c :: cs =>
    if old.isPrefixOf (c :: cs) then new ++ replaceFrom old new (old.length - 1) cs
    else c :: replaceFrom old new 0 cs

/-- The call `strings.Replace(s, old, new, -1)` for a non-empty `old`: every
occurrence of `old`, from left to right and without overlap, becomes `new`. -/
def stringsReplace (s old new : Str) : Str := replaceFrom old new 0 s

/-- The value of `exampleId` for an example name. -/
def exampleId (unicodeLower : Char → Char) (exampleName : Str) : Str :=
  let id0 := stringsToLower unicodeLower exampleName
  let id1 := stringsReplace id0 " ".toList "-".toList
  let id2 := stringsReplace id1 "/".toList "-".toList
  stringsReplace id2 [Char.ofNat 39] []

/-- The slug in the words of the specification: the name in lower case, with
every space and every slash turned into a hyphen and every apostrophe removed. -/
def slugSpec (unicodeLower : Char → Char) (name : Str) : Str :=
  (name.map (toLowerChar unicodeLower)).flatMap (fun c =>
    if c = ' ' ∨ c = '/' then ['-'] else if c = Char.ofNat 39 then [] else [c])

/-- The struct `Example`.  A pointer to an `Example` is represented by the index
of that `Example` in the slice `examples` of `parseExamples`, which holds, in
order, every `Example` that the function allocates. -/
structure Example where
  Id : Str
  Name : Str
  Segs : List (List Seg)
  NextExample : Option Nat
deriving DecidableEq, Repr

/-- What `parseExamples` takes from outside: the renderers, the case table, the
result of `mustGlob` for a pattern and the result of `readLines` for the path
of a source file.  The last two are `none` where `mustGlob` and `mustReadFile`
panic through `check(err)`. -/
structure Env where
  markdown : Str → Str
  highlight : Str → Str → Str
  unicodeLower : Char → Char
  glob : Str → Option (List Str)
  readLines : Str → Option (List Str)

/-- The inner loop of `parseExamples`: the segments of the source files of one
example, in the order of the paths.  Each file is read first, by the call of
`readLines` at the start of `parseSegs`. -/
def exampleSegs (env : Env) (sourcePaths : List Str) : Option (List (List Seg)) :=
  sourcePaths.foldlM (fun segs sourcePath => do
    let lines ← env.readLines sourcePath
    let sourceSegs ← parseAndRenderSegs env.markdown env.highlight sourcePath lines
    pure (segs ++ [sourceSegs])) []

/-- The body of the first loop of `parseExamples`. -/
def addExample (env : Env) (examples : List Example) (exampleName : Str) :
    Option (List Example) :=
  if exampleName ≠ [] ∧ ¬ "#".toList.isPrefixOf exampleName then do
    let id := exampleId env.unicodeLower exampleName
    let sourcePaths ← env.glob ("examples/".toList ++ id ++ "/*".toList)
    let segs ← exampleSegs env sourcePaths
    pure (examples ++ [{ Id := id, Name := exampleName, Segs := segs, NextExample := none }])
  else pure examples

/-- The body of the second loop of `parseExamples` for the example at index `i`
of a slice of length `n`. -/
def linkExample (n : Nat) (i : Nat) (example0 : Example) : Example :=
  if (i : Int) < (n : Int) - 1 then { example0 with NextExample := some (i + 1) } else example0

/-- The function `parseExamples`, on the lines of `examples.txt`. -/
def parseExamples (env : Env) (exampleNames : List Str) : Option (List Example) := do
  let examples ← exampleNames.foldlM (addExample env) []
  pure (examples.enum.map (fun p => linkExample examples.length p.1 p.2))

/-- The call `examples[p]` for a pointer `p` into the slice. -/
def deref (examples : List Example) (p : Nat) : Option Example := examples[p]?

/-- The call `strings.Join(lines, "\n")`. -/
def joinLines (lines : List Str) : Str := stringsJoin lines "\n".toList

/-- A test environment: no rendering, and two source files for every example. -/
def testEnv : Env :=
  { markdown := fun s => s, highlight := fun _ s => s, unicodeLower := fun c => c,
    glob := fun pat => some [pat.dropLast ++ "a.go".toList, pat.dropLast ++ "a.sh".toList],
    readLines := fun _ => some ["// doc".toList, "code".toList] }

/-- A test environment in which the glob finds a directory named like a source
file, `examples/<id>/d.go`, which cannot be read. -/
def dirEnv : Env :=
  { markdown := fun s => s, highlight := fun _ s => s, unicodeLower := fun c => c,
    glob := fun pat => some [pat.dropLast ++ "d.go".toList],
    readLines := fun _ => none }

/-! ## General lemmas -/

theorem lastSeg_concat (pre : List Seg) (l : Seg) : lastSeg (pre ++ [l]) = some l := by
  simp [lastSeg]

theorem setLast_concat (pre : List Seg) (l s : Seg) : setLast (pre ++ [l]) s = pre ++ [s] := by
  simp [setLast]

theorem eq_nil_or_snoc {α : Type} (l : List α) : l = [] ∨ ∃ pre x, l = pre ++ [x] := by
  rcases List.eq_nil_or_concat l with h | ⟨pre, x, h⟩
  · exact Or.inl h
  · exact Or.inr ⟨pre, x, by simpa using h⟩

theorem Ok.snoc_of_ne {segs : List Seg} {ls : LastSeen} (hok : Ok (segs, ls))
    (h : ls ≠ LastSeen.empty) : ∃ pre l, segs = pre ++ [l] := by
  rcases eq_nil_or_snoc segs with h0 | h0
  · rcases hok with h1 | h1
    · exact absurd h1 h
    · exact absurd h0 h1
  · exact h0

/-- In a state where no index is out of range, the loop body succeeds and makes
one of the six transitions. -/
theorem scanLine_trans (st : List Seg × LastSeen) (line : Str) (hok : Ok st) :
    ∃ st', scanLine st line = some st' ∧ Trans line st st' := by
  obtain ⟨segs, ls⟩ := st
  by_cases hl : line = []
  · subst hl
    exact ⟨_, by simp [scanLine], Trans.blank segs ls⟩
  by_cases ht : todoPatMatchString line = true
  · exact ⟨_, by simp [scanLine, hl, ht], Trans.skip line _ hl ht⟩
  have ht' : todoPatMatchString line = false := by simpa using ht
  cases hd : docsPatRest line with
  | none =>
    cases ls with
    | empty =>
      refine ⟨_, ?_, Trans.codeNew line segs _ hl ht' hd (Or.inl rfl)⟩
      simp [scanLine, hl, ht', docsPatMatchString, hd, newDocs, newCode]
    | docs =>
      obtain ⟨pre, l, rfl⟩ := hok.snoc_of_ne (by simp)
      by_cases hc : l.Code = []
      · refine ⟨_, ?_, Trans.codeAdd line pre l _ hl ht' hd (Or.inr ⟨rfl, hc⟩)⟩
        simp [scanLine, hl, ht', docsPatMatchString, hd, newDocs, newCode,
          lastSeg_concat, setLast_concat, hc]
      · refine ⟨_, ?_, Trans.codeNew line _ _ hl ht' hd (Or.inr ⟨rfl, pre, l, rfl, hc⟩)⟩
        simp [scanLine, hl, ht', docsPatMatchString, hd, newDocs, newCode,
          lastSeg_concat, setLast_concat, hc]
    | code =>
      obtain ⟨pre, l, rfl⟩ := hok.snoc_of_ne (by simp)
      refine ⟨_, ?_, Trans.codeAdd line pre l _ hl ht' hd (Or.inl rfl)⟩
      simp [scanLine, hl, ht', docsPatMatchString, hd, newDocs, newCode,
        lastSeg_concat, setLast_concat]
  | some t =>
    cases ls with
    | empty =>
      refine ⟨_, ?_, Trans.docNew line t segs _ hl ht' hd (Or.inl rfl)⟩
      simp [scanLine, hl, ht', docsPatMatchString, docsPatReplaceAllString, hd,
        newDocs, newCode]
    | code =>
      obtain ⟨pre, l, rfl⟩ := hok.snoc_of_ne (by simp)
      by_cases hc : l.Docs = []
      · refine ⟨_, ?_, Trans.docAdd line t pre l _ hl ht' hd (Or.inr ⟨rfl, hc⟩)⟩
        simp [scanLine, hl, ht', docsPatMatchString, docsPatReplaceAllString, hd,
          newDocs, newCode, lastSeg_concat, setLast_concat, hc]
      · refine ⟨_, ?_, Trans.docNew line t _ _ hl ht' hd (Or.inr ⟨rfl, pre, l, rfl, hc⟩)⟩
        simp [scanLine, hl, ht', docsPatMatchString, docsPatReplaceAllString, hd,
          newDocs, newCode, lastSeg_concat, setLast_concat, hc]
    | docs =>
      obtain ⟨pre, l, rfl⟩ := hok.snoc_of_ne (by simp)
      refine ⟨_, ?_, Trans.docAdd line t pre l _ hl ht' hd (Or.inl rfl)⟩
      simp [scanLine, hl, ht', docsPatMatchString, docsPatReplaceAllString, hd,
        newDocs, newCode, lastSeg_concat, setLast_concat]

/-- Every transition leads to a state where no index is out of range. -/
theorem Trans.ok {line : Str} {st st' : List Seg × LastSeen} (h : Trans line st st')
    (hok : Ok st) : Ok st' := by
  cases h with
  | blank => exact Or.inl rfl
  | skip => exact hok
  | docNew => exact Or.inr (by simp)
  | docAdd => exact Or.inr (by simp)
  | codeNew => exact Or.inr (by simp)
  | codeAdd => exact Or.inr (by simp)

theorem scanLines_nil (st : List Seg × LastSeen) : scanLines st [] = some st := rfl

theorem scanLines_cons (st : List Seg × LastSeen) (line : Str) (lines : List Str) :
    scanLines st (line :: lines) = (scanLine st line).bind (fun s => scanLines s lines) := by
  simp [scanLines, List.foldlM_cons]

theorem scanLines_append (st : List Seg × LastSeen) (a b : List Str) :
    scanLines st (a ++ b) = (scanLines st a).bind (fun s => scanLines s b) := by
  simp [scanLines, List.foldlM_append]

/-- From a state where no index is out of range the scanning loop succeeds on
every list of lines, and its run is a chain of transitions. -/
theorem scanLines_run (lines : List Str) : ∀ st : List Seg × LastSeen, Ok st →
    ∃ st', scanLines st lines = some st' ∧ Run lines st st' ∧ Ok st' := by
  induction lines with
  | nil => intro st hok; exact ⟨st, rfl, Run.nil st, hok⟩
  | cons line lines ih =>
    intro st hok
    obtain ⟨st1, h1, t1⟩ := scanLine_trans st line hok
    obtain ⟨st2, h2, r2, ok2⟩ := ih st1 (t1.ok hok)
    exact ⟨st2, by simp [scanLines_cons, h1, h2], Run.cons t1 r2, ok2⟩

theorem ok_init : Ok (([] : List Seg), LastSeen.empty) := Or.inl rfl

/-- The function `parseSegs` returns on every input: its result is the second
loop applied to the segments that a run from the initial state ends with. -/
theorem parseSegs_run (lines : List Str) :
    ∃ st, parseSegs lines = some (postPass st.1) ∧ Run lines ([], LastSeen.empty) st ∧ Ok st := by
  obtain ⟨st, h, r, ok⟩ := scanLines_run lines _ ok_init
  exact ⟨st, by simp [parseSegs, h], r, ok⟩

/-- A property of the state that every transition preserves, on lines that
satisfy `Q`, holds at the end of a run if it holds at its start. -/
theorem Run.invariant (I : List Seg × LastSeen → Prop) (Q : Str → Prop)
    (hstep : ∀ line st st', Q line → Ok st → I st → Trans line st st' → I st')
    {lines : List Str} {st st' : List Seg × LastSeen} (r : Run lines st st') :
    (∀ l ∈ lines, Q l) → Ok st → I st → I st' := by
  induction r with
  | nil st => intro _ _ h; exact h
  | cons t _ ih =>
    intro hq hok hi
    exact ih (fun l hl => hq l (List.mem_cons_of_mem _ hl)) (t.ok hok)
      (hstep _ _ _ (hq _ (List.mem_cons_self _ _)) hok hi t)

theorem postPass_length (segs : List Seg) : (postPass segs).length = segs.length := by
  simp [postPass]

theorem postPass_getElem (segs : List Seg) (i : Nat) (h : i < segs.length) :
    (postPass segs)[i]?  = some (setFlags segs.length i segs[i]) := by
  simp [postPass, List.getElem?_enum, List.getElem?_eq_getElem h]

theorem postPass_raw (segs : List Seg) : (postPass segs).map Seg.raw = segs.map Seg.raw := by
  have h : (fun p : Nat × Seg => (setFlags segs.length p.1 p.2).raw) = Seg.raw ∘ Prod.snd := by
    funext p; rfl
  simp only [postPass, List.map_map, Function.comp_def]
  rw [show (fun x : Nat × Seg => (setFlags segs.length x.1 x.2).raw) = Seg.raw ∘ Prod.snd from h,
    ← List.map_map, List.enum_map_snd]

/-- The second loop changes neither `Docs` nor `Code`. -/
theorem mem_postPass {segs : List Seg} {s : Seg} (h : s ∈ postPass segs) :
    ∃ s0 ∈ segs, s.Docs = s0.Docs ∧ s.Code = s0.Code := by
  simp only [postPass, List.mem_map] at h
  obtain ⟨⟨i, s0⟩, hm, rfl⟩ := h
  exact ⟨s0, List.snd_mem_of_mem_enum hm, rfl, rfl⟩

/-! ## The scenario -/

/-- C1, as stated, fails: on the six scenario lines `parseSegs` does not return
four segments with the raw texts ("Package main", ""), ("", "package main"),
("Comment two", ""), ("", "more code\ncode line 2"). -/
theorem parseSegs_scenario_not_four :
    ¬ ∃ segs, parseSegs scenarioLines = some segs ∧
      segs.map Seg.raw =
        [("Package main".toList, []), ([], "package main".toList),
         ("Comment two".toList, []), ([], "more code\ncode line 2".toList)] := by
  decide

/-- C1, amended: on the six scenario lines `parseSegs` returns exactly two
segments, each pairing a documentation text with the code that follows it:
(Docs = "Package main", Code = "\npackage main") and
(Docs = "Comment two", Code = "\nmore code\ncode line 2"); only the first has
`CodeLeading` set and neither has `CodeEmpty` set. -/
theorem parseSegs_scenario :
    parseSegs scenarioLines =
      some [{ Docs := "Package main".toList, DocsRendered := [],
              Code := "\npackage main".toList, CodeRendered := [],
              CodeEmpty := false, CodeLeading := true },
            { Docs := "Comment two".toList, DocsRendered := [],
              Code := "\nmore code\ncode line 2".toList, CodeRendered := [],
              CodeEmpty := false, CodeLeading := false }] := by
  decide

/-! ## Segments that hold both kinds of text -/

/-- Every transition keeps: a segment with both raw texts non-empty has one of
them starting with a newline. -/
theorem both_step (line : Str) (st st' : List Seg × LastSeen)
    (hi : ∀ s ∈ st.1, s.Docs = [] ∨ s.Code = [] ∨
      s.Docs.head? = some '\n' ∨ s.Code.head? = some '\n')
    (t : Trans line st st') :
    ∀ s ∈ st'.1, s.Docs = [] ∨ s.Code = [] ∨
      s.Docs.head? = some '\n' ∨ s.Code.head? = some '\n' := by
  cases t with
  | blank => exact hi
  | skip => exact hi
  | docNew line t segs ls =>
    intro s hs
    rcases List.mem_append.1 hs with h | h
    · exact hi s h
    · simp only [List.mem_singleton] at h
      subst h
      exact Or.inr (Or.inl rfl)
  | codeNew line segs ls =>
    intro s hs
    rcases List.mem_append.1 hs with h | h
    · exact hi s h
    · simp only [List.mem_singleton] at h
      subst h
      exact Or.inl rfl
  | docAdd line t pre l ls =>
    intro s hs
    rcases List.mem_append.1 hs with h | h
    · exact hi s (List.mem_append_left _ h)
    · simp only [List.mem_singleton] at h
      subst h
      rcases hi l (by simp) with h | h | h | h
      · exact Or.inr (Or.inr (Or.inl (by simp [h])))
      · exact Or.inr (Or.inl h)
      · refine Or.inr (Or.inr (Or.inl ?_))
        cases hd : l.Docs with
        | nil => simp
        | cons c cs => simpa [hd] using h
      · exact Or.inr (Or.inr (Or.inr h))
  | codeAdd line pre l ls =>
    intro s hs
    rcases List.mem_append.1 hs with h | h
    · exact hi s (List.mem_append_left _ h)
    · simp only [List.mem_singleton] at h
      subst h
      rcases hi l (by simp) with h | h | h | h
      · exact Or.inl h
      · exact Or.inr (Or.inr (Or.inr (by simp [h])))
      · exact Or.inr (Or.inr (Or.inl h))
      · refine Or.inr (Or.inr (Or.inr ?_))
        cases hd : l.Code with
        | nil => simp
        | cons c cs => simpa [hd] using h

/-- C2, as stated, fails: a documentation line directly followed by a code line
gives a segment whose `Docs` and `Code` are both non-empty. -/
theorem parseSegs_one_field_empty_fails :
    ¬ ∀ lines segs, parseSegs lines = some segs →
        ∀ s ∈ segs, s.Docs = [] ∨ s.Code = [] := by
  intro h
  have h2 := h ["// a".toList, "b".toList] _ rfl
    { Docs := "a".toList, DocsRendered := [], Code := "\nb".toList, CodeRendered := [],
      CodeEmpty := false, CodeLeading := false } (by decide)
  revert h2
  decide

/-- C2, amended: for every sequence of input lines `parseSegs` returns segments,
and each of them has `Docs` empty, or `Code` empty, or holds both kinds of text,
in which case `Docs` or `Code` starts with a newline (the text that was appended
to an open segment whose field of that kind was still empty). -/
theorem parseSegs_both_fields (lines : List Str) :
    ∃ segs, parseSegs lines = some segs ∧
      ∀ s ∈ segs, s.Docs = [] ∨ s.Code = [] ∨
        s.Docs.head? = some '\n' ∨ s.Code.head? = some '\n' := by
  obtain ⟨st, h, r, _⟩ := parseSegs_run lines
  refine ⟨_, h, ?_⟩
  have hinv := r.invariant
    (fun st => ∀ s ∈ st.1, s.Docs = [] ∨ s.Code = [] ∨
      s.Docs.head? = some '\n' ∨ s.Code.head? = some '\n')
    (fun _ => True) (fun line st st' _ _ hi t => both_step line st st' hi t)
    (fun _ _ => trivial) ok_init (by simp)
  intro s hs
  obtain ⟨s0, hm, hd, hc⟩ := mem_postPass hs
  rw [hd, hc]
  exact hinv s0 hm

/-- C2, amended, on the lines "// a", "b", "", "c", "# d". -/
theorem parseSegs_both_fields_witness :
    ∃ segs, parseSegs ["// a".toList, "b".toList, [], "c".toList, "# d".toList] = some segs ∧
      ∀ s ∈ segs, s.Docs = [] ∨ s.Code = [] ∨
        s.Docs.head? = some '\n' ∨ s.Code.head? = some '\n' :=
  parseSegs_both_fields ["// a".toList, "b".toList, [], "c".toList, "# d".toList]

/-! ## Alternation -/

theorem altInv_step (line : Str) (st st' : List Seg × LastSeen) (hq : line ≠ [])
    (hi : AltInv st) (t : Trans line st st') : AltInv st' := by
  obtain ⟨h1, h2, h3⟩ := hi
  cases t with
  | blank => exact absurd rfl hq
  | skip => exact ⟨h1, h2, h3⟩
  | docNew line t segs ls _ _ _ hc =>
    refine ⟨by simp, ?_, by simp [mkSeg]⟩
    rcases hc with rfl | ⟨rfl, pre, l, rfl, hl⟩
    · have h0 : segs = [] := h1 rfl
      subst h0
      simp
    · intro s hs
      simp only [List.dropLast_concat, List.mem_append, List.mem_singleton] at hs
      rcases hs with hs | rfl
      · exact h2 s (by simpa using hs)
      · exact ⟨hl, (h3 s (by simp)).1 rfl⟩
  | codeNew line segs ls _ _ _ hc =>
    refine ⟨by simp, ?_, by simpa [mkSeg] using hq⟩
    rcases hc with rfl | ⟨rfl, pre, l, rfl, hl⟩
    · have h0 : segs = [] := h1 rfl
      subst h0
      simp
    · intro s hs
      simp only [List.dropLast_concat, List.mem_append, List.mem_singleton] at hs
      rcases hs with hs | rfl
      · exact h2 s (by simpa using hs)
      · exact ⟨(h3 s (by simp)).2 rfl hl, hl⟩
  | docAdd line t pre l ls =>
    refine ⟨by simp, ?_, by simp⟩
    intro s hs
    exact h2 s (by simpa using hs)
  | codeAdd line pre l ls =>
    refine ⟨by simp, ?_, by simp⟩
    intro s hs
    exact h2 s (by simpa using hs)

/-- C3, as stated, fails: on the lines "// a", "b", "// c", "d", which hold no
empty line, the two segments returned are adjacent and both have non-empty
`Docs` (and both have non-empty `Code`). -/
theorem parseSegs_alternation_fails :
    ¬ ∀ lines : List Str, (∀ l ∈ lines, l ≠ []) →
        ∀ segs, parseSegs lines = some segs →
          ∀ i s t, segs[i]? = some s → segs[i + 1]? = some t →
            ¬ (s.Docs ≠ [] ∧ t.Docs ≠ []) ∧ ¬ (s.Code ≠ [] ∧ t.Code ≠ []) := by
  intro h
  have h2 := h ["// a".toList, "b".toList, "// c".toList, "d".toList] (by decide) _ rfl 0
    { Docs := "a".toList, DocsRendered := [], Code := "\nb".toList, CodeRendered := [],
      CodeEmpty := false, CodeLeading := true }
    { Docs := "c".toList, DocsRendered := [], Code := "\nd".toList, CodeRendered := [],
      CodeEmpty := false, CodeLeading := false } (by decide) (by decide)
  revert h2
  decide

/-- C3, amended: for every sequence of input lines that contains no empty line,
`parseSegs` returns segments of which every one but the last has both `Docs`
and `Code` non-empty: a new segment is opened only once the open one holds both
kinds of text, so no two adjacent segments both have an empty `Docs` and no two
adjacent segments both have an empty `Code`. -/
theorem parseSegs_inner_segments_full (lines : List Str) (hne : ∀ l ∈ lines, l ≠ []) :
    ∃ segs, parseSegs lines = some segs ∧
      ∀ i s, i + 1 < segs.length → segs[i]? = some s → s.Docs ≠ [] ∧ s.Code ≠ [] := by
  obtain ⟨st, h, r, _⟩ := parseSegs_run lines
  refine ⟨_, h, ?_⟩
  have hinv : AltInv st := r.invariant AltInv (fun l => l ≠ [])
    (fun line st st' hq _ hi t => altInv_step line st st' hq hi t) hne ok_init
    ⟨fun _ => rfl, by simp, by simp⟩
  intro i s hi hs
  rw [postPass_length] at hi
  rw [postPass_getElem st.1 i (by omega)] at hs
  cases hs
  have hm : st.1[i] ∈ st.1.dropLast := by
    have hlt : i < st.1.dropLast.length := by simp; omega
    have := List.getElem_mem hlt
    simpa [List.getElem_dropLast] using this
  exact hinv.2.1 st.1[i] hm

/-- C3, amended, on the lines "// a", "b", "// c", "d". -/
theorem parseSegs_inner_segments_full_witness :
    (∀ l ∈ ["// a".toList, "b".toList, "// c".toList, "d".toList], l ≠ []) ∧
    ∃ segs, parseSegs ["// a".toList, "b".toList, "// c".toList, "d".toList] = some segs ∧
      ∀ i s, i + 1 < segs.length → segs[i]? = some s → s.Docs ≠ [] ∧ s.Code ≠ [] :=
  ⟨by decide, parseSegs_inner_segments_full _ (by decide)⟩

/-! ## Coverage -/

theorem postPass_docs (segs : List Seg) : (postPass segs).map Seg.Docs = segs.map Seg.Docs := by
  have h := congrArg (List.map Prod.fst) (postPass_raw segs)
  simpa [List.map_map, Function.comp_def, Seg.raw] using h

theorem postPass_code (segs : List Seg) : (postPass segs).map Seg.Code = segs.map Seg.Code := by
  have h := congrArg (List.map Prod.snd) (postPass_raw segs)
  simpa [List.map_map, Function.comp_def, Seg.raw] using h

theorem removeNl_append (a b : Str) : removeNl (a ++ b) = removeNl a ++ removeNl b := by
  simp [removeNl]

theorem removeNl_nl (a : Str) : removeNl ('\n' :: a) = removeNl a := by
  simp [removeNl]

theorem docTexts_cons (line : Str) (lines : List Str) :
    docTexts (line :: lines) = docTexts [line] ++ docTexts lines := by
  simp only [docTexts, List.filter_cons, List.filter_nil]
  split <;> simp

theorem codeTexts_cons (line : Str) (lines : List Str) :
    codeTexts (line :: lines) = codeTexts [line] ++ codeTexts lines := by
  simp only [codeTexts, List.filter_cons, List.filter_nil]
  split <;> simp

/-- What one transition adds to the documentation texts and to the code texts
of the segments, newline characters apart. -/
theorem Trans.texts {line : Str} {st st' : List Seg × LastSeen} (t : Trans line st st') :
    removeNl (st'.1.map Seg.Docs).flatten =
      removeNl (st.1.map Seg.Docs).flatten ++ removeNl (docTexts [line]).flatten ∧
    removeNl (st'.1.map Seg.Code).flatten =
      removeNl (st.1.map Seg.Code).flatten ++ removeNl (codeTexts [line]).flatten := by
  cases t with
  | blank => simp [docTexts, codeTexts, isStored, removeNl]
  | skip line st hl ht => simp [docTexts, codeTexts, isStored, ht, removeNl]
  | docNew line t segs ls hl ht hd =>
    simp [docTexts, codeTexts, isStored, hl, ht, docsPatMatchString, hd, storedText,
      docsPatReplaceAllString, mkSeg, removeNl_append]
    simp [removeNl]
  | docAdd line t pre l ls hl ht hd =>
    simp [docTexts, codeTexts, isStored, hl, ht, docsPatMatchString, hd, storedText,
      docsPatReplaceAllString, removeNl_append, removeNl_nl]
    simp [removeNl]
  | codeNew line segs ls hl ht hd =>
    simp [docTexts, codeTexts, isStored, hl, ht, docsPatMatchString, hd, storedText,
      mkSeg, removeNl_append]
    simp [removeNl]
  | codeAdd line pre l ls hl ht hd =>
    simp [docTexts, codeTexts, isStored, hl, ht, docsPatMatchString, hd, storedText,
      removeNl_append, removeNl_nl]
    simp [removeNl]

/-- What a run adds to the documentation texts and to the code texts of the
segments, newline characters apart. -/
theorem Run.texts_run {lines : List Str} {st st' : List Seg × LastSeen} (r : Run lines st st') :
    removeNl (st'.1.map Seg.Docs).flatten =
      removeNl (st.1.map Seg.Docs).flatten ++ removeNl (docTexts lines).flatten ∧
    removeNl (st'.1.map Seg.Code).flatten =
      removeNl (st.1.map Seg.Code).flatten ++ removeNl (codeTexts lines).flatten := by
  induction r with
  | nil st => simp [docTexts, codeTexts, removeNl]
  | cons t _ ih =>
    obtain ⟨h1, h2⟩ := t.texts
    rw [docTexts_cons, codeTexts_cons, ih.1, ih.2, h1, h2]
    simp [removeNl_append, List.append_assoc]

/-- C4, as stated, fails: on the two code lines "a", "b" the stored contents
concatenate to "ab", and the raw texts of the segments to "a\nb". -/
theorem parseSegs_coverage_fails :
    ¬ ∀ lines segs, parseSegs lines = some segs →
        ((lines.filter isStored).map storedText).flatten =
          (segs.map (fun s => s.Docs ++ s.Code)).flatten := by
  intro h
  have h2 := h ["a".toList, "b".toList] _ rfl
  revert h2
  decide

/-- C4, amended: coverage holds kind by kind and up to the newlines of the
joins.  For every sequence of input lines `parseSegs` returns segments such that
the concatenation, in segment order, of their `Docs` and the concatenation, in
input order, of the stripped texts of the non-empty, non-skipped documentation
lines are equal once the newline characters are deleted from both; and the same
for their `Code` and the non-empty, non-skipped code lines. -/
theorem parseSegs_coverage (lines : List Str) :
    ∃ segs, parseSegs lines = some segs ∧
      removeNl (segs.map Seg.Docs).flatten = removeNl (docTexts lines).flatten ∧
      removeNl (segs.map Seg.Code).flatten = removeNl (codeTexts lines).flatten := by
  obtain ⟨st, h, r, _⟩ := parseSegs_run lines
  refine ⟨_, h, ?_⟩
  rw [postPass_docs, postPass_code]
  simpa [removeNl] using r.texts_run

/-- C4, amended, on the lines "x", "// y", "z", "", "// todo: w", "# v". -/
theorem parseSegs_coverage_witness :
    ∃ segs, parseSegs ["x".toList, "// y".toList, "z".toList, [], "// todo: w".toList,
        "# v".toList] = some segs ∧
      removeNl (segs.map Seg.Docs).flatten = "yv".toList ∧
      removeNl (segs.map Seg.Code).flatten = "xz".toList :=
  parseSegs_coverage ["x".toList, "// y".toList, "z".toList, [], "// todo: w".toList,
    "# v".toList]

/-! ## Skipped lines -/

theorem todoPatMatchString_nil : todoPatMatchString [] = false := by decide

/-- A line matched by `todoPat` leaves the state of the scanning loop as it is. -/
theorem scanLine_skip (st : List Seg × LastSeen) (line : Str)
    (h : todoPatMatchString line = true) : scanLine st line = some st := by
  have hl : line ≠ [] := by
    rintro rfl
    simp [todoPatMatchString_nil] at h
  simp [scanLine, hl, h]

theorem scanLines_filter_skip (lines : List Str) : ∀ st : List Seg × LastSeen,
    scanLines st (lines.filter (fun l => !todoPatMatchString l)) = scanLines st lines := by
  induction lines with
  | nil => intro st; rfl
  | cons line lines ih =>
    intro st
    by_cases h : todoPatMatchString line = true
    · simp [scanLines_cons, scanLine_skip st line h, h, ih]
    · have h' : todoPatMatchString line = false := by simpa using h
      simp only [List.filter_cons, h', Bool.not_false, if_true, scanLines_cons]
      congr 1
      funext s
      exact ih s

/-- C5: for every sequence of input lines, `parseSegs` returns on it what it
returns on the sequence without the lines that `todoPat` matches (those that
contain "// todo: "), whether or not `docsPat` matches them too; and it does
return segments on both. -/
theorem parseSegs_filter_skip (lines : List Str) :
    parseSegs (lines.filter (fun l => !todoPatMatchString l)) = parseSegs lines ∧
    (parseSegs lines).isSome = true := by
  refine ⟨by simp [parseSegs, scanLines_filter_skip], ?_⟩
  obtain ⟨st, h, _⟩ := parseSegs_run lines
  simp [h]

/-! ## The two patterns, in terms of lists -/

theorem hasSub_iff (pat s : Str) : hasSub pat s = true ↔ pat <:+: s := by
  induction s with
  | nil => simp [hasSub, List.isEmpty_iff]
  | cons c cs ih =>
    simp only [hasSub, Bool.or_eq_true, ih, List.infix_cons_iff, List.isPrefixOf_iff_prefix]

theorem todoPatMatchString_iff (line : Str) :
    todoPatMatchString line = true ↔ todoText <:+: line := hasSub_iff _ _

theorem prefix_of_sep {c : Char} {m : Str} (hc : c ∉ m) :
    ∀ (a b : Str), m <+: a ++ c :: b → m <+: a := by
  induction m with
  | nil => intro a b _; exact List.nil_prefix
  | cons x m ih =>
    intro a b h
    cases a with
    | nil =>
      rw [List.nil_append, List.cons_prefix_cons] at h
      exact absurd (by simp [h.1]) hc
    | cons y a =>
      rw [List.cons_append, List.cons_prefix_cons] at h
      rw [List.cons_prefix_cons]
      exact ⟨h.1, ih (fun hm => hc (List.mem_cons_of_mem _ hm)) a b h.2⟩

/-- A text without the character `c` that occurs in `a ++ c :: b` occurs in `a`
or in `b`. -/
theorem infix_of_sep {c : Char} {m : Str} (hc : c ∉ m) :
    ∀ (a b : Str), m <:+: a ++ c :: b → m <:+: a ∨ m <:+: b := by
  intro a
  induction a with
  | nil =>
    intro b h
    rw [List.nil_append, List.infix_cons_iff] at h
    rcases h with h | h
    · exact Or.inl (prefix_of_sep hc [] b h).isInfix
    · exact Or.inr h
  | cons y a ih =>
    intro b h
    rw [List.cons_append, List.infix_cons_iff] at h
    rcases h with h | h
    · exact Or.inl (prefix_of_sep hc (y :: a) b h).isInfix
    · rcases ih b h with h | h
      · exact Or.inl (List.infix_cons h)
      · exact Or.inr h

theorem dropWhile_isSpace_append (ws rest : Str) (hws : ∀ x ∈ ws, isSpace x = true) :
    (ws ++ rest).dropWhile isSpace = rest.dropWhile isSpace := by
  induction ws with
  | nil => rfl
  | cons x ws ih =>
    have hx : isSpace x = true := hws x (List.mem_cons_self _ _)
    simp only [List.cons_append, List.dropWhile_cons, hx, if_true]
    exact ih (fun y hy => hws y (List.mem_cons_of_mem _ hy))

/-- The pattern `docsPat` matches a line, leaving `t` after the match, exactly
when the line is a run of whitespace, then `//` or `#`, then one whitespace
character, then `t`. -/
theorem docsPatRest_eq_some_iff (line t : Str) :
    docsPatRest line = some t ↔
      ∃ ws m c, line = ws ++ m ++ c :: t ∧ (∀ x ∈ ws, isSpace x = true) ∧
        (m = ['/', '/'] ∨ m = ['#']) ∧ isSpace c = true := by
  constructor
  · intro h
    have hsplit := List.takeWhile_append_dropWhile isSpace line
    have hws : ∀ x ∈ line.takeWhile isSpace, isSpace x = true :=
      fun x hx => List.mem_takeWhile_imp hx
    unfold docsPatRest at h
    split at h
    · rename_i c rest heq
      split at h
      · rename_i hc
        cases h
        exact ⟨_, ['/', '/'], c, by rw [heq] at hsplit; simpa using hsplit.symm, hws, Or.inl rfl, hc⟩
      · cases h
    · rename_i c rest heq
      split at h
      · rename_i hc
        cases h
        exact ⟨_, ['#'], c, by rw [heq] at hsplit; simpa using hsplit.symm, hws, Or.inr rfl, hc⟩
      · cases h
    · cases h
  · rintro ⟨ws, m, c, rfl, hws, hm, hc⟩
    rcases hm with rfl | rfl
    · simp [docsPatRest, dropWhile_isSpace_append _ _ hws, List.dropWhile_cons,
        show isSpace '/' = false from by decide, hc]
    · simp [docsPatRest, dropWhile_isSpace_append _ _ hws, List.dropWhile_cons,
        show isSpace '#' = false from by decide, hc]

/-- The text left after the match of `docsPat` is a suffix of the line. -/
theorem docsPatRest_suffix {line t : Str} (h : docsPatRest line = some t) : t <:+ line := by
  obtain ⟨ws, m, c, rfl, _, _, _⟩ := (docsPatRest_eq_some_iff line t).1 h
  exact ⟨ws ++ m ++ [c], by simp⟩

/-! ## Single lines, and the other direction of the transitions -/

/-- Every transition is the one that the loop body makes. -/
theorem Trans.scanLine_eq {line : Str} {st st' : List Seg × LastSeen} (t : Trans line st st') :
    scanLine st line = some st' := by
  cases t with
  | blank => simp [scanLine]
  | skip line st hl ht => exact scanLine_skip st line ht
  | docNew line t segs ls hl ht hd hc =>
    rcases hc with rfl | ⟨rfl, pre, l, rfl, hne⟩
    · simp [scanLine, hl, ht, docsPatMatchString, docsPatReplaceAllString, hd, newDocs, newCode]
    · simp [scanLine, hl, ht, docsPatMatchString, docsPatReplaceAllString, hd, newDocs, newCode,
        lastSeg_concat, hne]
  | docAdd line t pre l ls hl ht hd hc =>
    rcases hc with rfl | ⟨rfl, he⟩
    · simp [scanLine, hl, ht, docsPatMatchString, docsPatReplaceAllString, hd, newDocs, newCode,
        lastSeg_concat, setLast_concat]
    · simp [scanLine, hl, ht, docsPatMatchString, docsPatReplaceAllString, hd, newDocs, newCode,
        lastSeg_concat, setLast_concat, he]
  | codeNew line segs ls hl ht hd hc =>
    rcases hc with rfl | ⟨rfl, pre, l, rfl, hne⟩
    · simp [scanLine, hl, ht, docsPatMatchString, hd, newDocs, newCode]
    · simp [scanLine, hl, ht, docsPatMatchString, hd, newDocs, newCode, lastSeg_concat, hne]
  | codeAdd line pre l ls hl ht hd hc =>
    rcases hc with rfl | ⟨rfl, he⟩
    · simp [scanLine, hl, ht, docsPatMatchString, hd, newDocs, newCode,
        lastSeg_concat, setLast_concat]
    · simp [scanLine, hl, ht, docsPatMatchString, hd, newDocs, newCode,
        lastSeg_concat, setLast_concat, he]

/-- Every run is the one that the scanning loop makes. -/
theorem Run.scanLines_eq {lines : List Str} {st st' : List Seg × LastSeen}
    (r : Run lines st st') : scanLines st lines = some st' := by
  induction r with
  | nil st => rfl
  | cons t _ ih => simp [scanLines_cons, t.scanLine_eq, ih]

/-- A documentation line alone gives one segment, with the stripped text. -/
theorem parseSegs_single_doc {line t : Str} (hl : line ≠ [])
    (ht : todoPatMatchString line = false) (hd : docsPatRest line = some t) :
    parseSegs [line] =
      some [{ Docs := t, DocsRendered := [], Code := [], CodeRendered := [],
              CodeEmpty := true, CodeLeading := false }] := by
  have r : Run [line] ([], LastSeen.empty) ([] ++ [mkSeg t []], LastSeen.docs) :=
    Run.cons (Trans.docNew line t [] _ hl ht hd (Or.inl rfl)) (Run.nil _)
  simp [parseSegs, r.scanLines_eq, postPass, setFlags, mkSeg, List.enum, List.enumFrom]

/-- A code line alone gives one segment, with the whole line. -/
theorem parseSegs_single_code {line : Str} (hl : line ≠ [])
    (ht : todoPatMatchString line = false) (hd : docsPatRest line = none) :
    parseSegs [line] =
      some [{ Docs := [], DocsRendered := [], Code := line, CodeRendered := [],
              CodeEmpty := false, CodeLeading := false }] := by
  have r : Run [line] ([], LastSeen.empty) ([] ++ [mkSeg [] line], LastSeen.code) :=
    Run.cons (Trans.codeNew line [] _ hl ht hd (Or.inl rfl)) (Run.nil _)
  simp [parseSegs, r.scanLines_eq, postPass, setFlags, mkSeg, List.enum, List.enumFrom, hl]

/-- A line matched by `todoPat` can be deleted anywhere in the input. -/
theorem parseSegs_delete_skip (a b : List Str) {line : Str}
    (h : todoPatMatchString line = true) :
    parseSegs (a ++ line :: b) = parseSegs (a ++ b) := by
  simp only [parseSegs, scanLines_append, scanLines_cons]
  congr 2
  funext s
  simp [scanLine_skip s line h]

/-! ## The marker never reaches a segment -/

theorem todoText_no_nl : '\n' ∉ todoText := by decide

theorem noTodo_join {a b : Str} (ha : todoPatMatchString a = false)
    (hb : todoPatMatchString b = false) : todoPatMatchString (a ++ '\n' :: b) = false := by
  rw [Bool.eq_false_iff, Ne, todoPatMatchString_iff] at *
  intro h
  rcases infix_of_sep todoText_no_nl a b h with h | h
  · exact ha h
  · exact hb h

theorem noTodo_rest {line t : Str} (hl : todoPatMatchString line = false)
    (hd : docsPatRest line = some t) : todoPatMatchString t = false := by
  rw [Bool.eq_false_iff, Ne, todoPatMatchString_iff] at *
  intro h
  exact hl (h.trans (docsPatRest_suffix hd).isInfix)

theorem noTodo_step (line : Str) (st st' : List Seg × LastSeen)
    (hi : ∀ s ∈ st.1, todoPatMatchString s.Docs = false ∧ todoPatMatchString s.Code = false)
    (t : Trans line st st') :
    ∀ s ∈ st'.1, todoPatMatchString s.Docs = false ∧ todoPatMatchString s.Code = false := by
  cases t with
  | blank => exact hi
  | skip => exact hi
  | docNew line t segs ls hl ht hd =>
    intro s hs
    rcases List.mem_append.1 hs with h | h
    · exact hi s h
    · simp only [List.mem_singleton] at h
      subst h
      exact ⟨noTodo_rest ht hd, todoPatMatchString_nil⟩
  | codeNew line segs ls hl ht hd =>
    intro s hs
    rcases List.mem_append.1 hs with h | h
    · exact hi s h
    · simp only [List.mem_singleton] at h
      subst h
      exact ⟨todoPatMatchString_nil, ht⟩
  | docAdd line t pre l ls hl ht hd =>
    intro s hs
    rcases List.mem_append.1 hs with h | h
    · exact hi s (List.mem_append_left _ h)
    · simp only [List.mem_singleton] at h
      subst h
      have hl0 := hi l (by simp)
      exact ⟨noTodo_join hl0.1 (noTodo_rest ht hd), hl0.2⟩
  | codeAdd line pre l ls hl ht hd =>
    intro s hs
    rcases List.mem_append.1 hs with h | h
    · exact hi s (List.mem_append_left _ h)
    · simp only [List.mem_singleton] at h
      subst h
      have hl0 := hi l (by simp)
      exact ⟨hl0.1, noTodo_join hl0.2 ht⟩

/-- On every input `parseSegs` returns segments, none of which holds the text
"// todo: " in its `Docs` or in its `Code`. -/
theorem parseSegs_noTodo (lines : List Str) :
    ∃ segs, parseSegs lines = some segs ∧
      ∀ s ∈ segs, todoPatMatchString s.Docs = false ∧ todoPatMatchString s.Code = false := by
  obtain ⟨st, h, r, _⟩ := parseSegs_run lines
  refine ⟨_, h, ?_⟩
  have hinv := r.invariant
    (fun st => ∀ s ∈ st.1, todoPatMatchString s.Docs = false ∧ todoPatMatchString s.Code = false)
    (fun _ => True) (fun line st st' _ _ hi t => noTodo_step line st st' hi t)
    (fun _ _ => trivial) ok_init (by simp)
  intro s hs
  obtain ⟨s0, hm, hd, hc⟩ := mem_postPass hs
  rw [hd, hc]
  exact hinv s0 hm

/-- C6: for every sequence of input lines none of which contains a newline
character, `parseSegs` returns segments, and neither the `Docs` nor the `Code`
of any of them contains the text "// todo: ", be it inside one accumulated line
or across the newline that joins two of them.  (The proof does not use the
assumption on the lines.) -/
theorem parseSegs_skip_property (lines : List Str) (_hnl : ∀ l ∈ lines, '\n' ∉ l) :
    ∃ segs, parseSegs lines = some segs ∧
      ∀ s ∈ segs, ¬ todoText <:+: s.Docs ∧ ¬ todoText <:+: s.Code := by
  obtain ⟨segs, h, hs⟩ := parseSegs_noTodo lines
  refine ⟨segs, h, fun s hm => ?_⟩
  have := hs s hm
  simpa [Bool.eq_false_iff, Ne, todoPatMatchString_iff] using this

/-- C6 on the lines "a /", "/ todo: b", "// c // todo: d", "// e", "f". -/
theorem parseSegs_skip_property_witness :
    (∀ l ∈ ["a /".toList, "/ todo: b".toList, "// c // todo: d".toList, "// e".toList,
        "f".toList], '\n' ∉ l) ∧
    ∃ segs, parseSegs ["a /".toList, "/ todo: b".toList, "// c // todo: d".toList,
        "// e".toList, "f".toList] = some segs ∧
      ∀ s ∈ segs, ¬ todoText <:+: s.Docs ∧ ¬ todoText <:+: s.Code :=
  ⟨by decide, parseSegs_skip_property _ (by decide)⟩

/-! ## Hash-comment annotations -/

/-- C7, as stated, fails: the line "# todo: x" is not dropped; `parseSegs`
returns a segment for it, and nothing on the input without it. -/
theorem parseSegs_hash_todo_not_skipped :
    ¬ ∀ text : Str, parseSegs ["# todo: ".toList ++ text] = parseSegs [] := by
  intro h
  have h2 := h "x".toList
  revert h2
  decide

/-- C7, amended: a hash-comment annotation is not skipped as such.  A line
"# todo: <text>" that does not contain "// todo: " is a documentation line, and
"todo: <text>" is stored for it: alone, it gives the one segment with
`Docs` = "todo: <text>" and `Code` = "".  Only when <text> itself contains
"// todo: " is the line dropped, wherever it stands in the input. -/
theorem parseSegs_hash_todo (text : Str) :
    (todoPatMatchString ("# todo: ".toList ++ text) = false →
      parseSegs ["# todo: ".toList ++ text] =
        some [{ Docs := "todo: ".toList ++ text, DocsRendered := [], Code := [],
                CodeRendered := [], CodeEmpty := true, CodeLeading := false }]) ∧
    (todoPatMatchString ("# todo: ".toList ++ text) = true →
      ∀ a b, parseSegs (a ++ ("# todo: ".toList ++ text) :: b) = parseSegs (a ++ b)) := by
  refine ⟨fun h => ?_, fun h a b => parseSegs_delete_skip a b h⟩
  refine parseSegs_single_doc (by simp) h ?_
  exact (docsPatRest_eq_some_iff _ _).2 ⟨[], ['#'], ' ', by simp, by simp, Or.inr rfl, by decide⟩

/-- C7, amended, on the texts "fix this" and "fix // todo: this". -/
theorem parseSegs_hash_todo_witness :
    parseSegs ["# todo: fix this".toList] =
      some [{ Docs := "todo: fix this".toList, DocsRendered := [], Code := [],
              CodeRendered := [], CodeEmpty := true, CodeLeading := false }] ∧
    parseSegs ["a".toList, "# todo: fix // todo: this".toList, "b".toList] =
      parseSegs ["a".toList, "b".toList] :=
  ⟨(parseSegs_hash_todo "fix this".toList).1 (by decide),
   (parseSegs_hash_todo "fix // todo: this".toList).2 (by decide) ["a".toList] ["b".toList]⟩

/-! ## Blank lines -/

/-- A transition does not look at the segments before the last one: it can be
made after any list of earlier segments. -/
theorem Trans.frame (pre : List Seg) {line : Str} {segs segs' : List Seg} {ls ls' : LastSeen}
    (t : Trans line (segs, ls) (segs', ls')) (hok : Ok (segs, ls)) :
    Trans line (pre ++ segs, ls) (pre ++ segs', ls') := by
  cases t with
  | blank => exact Trans.blank _ _
  | skip _ _ hl ht => exact Trans.skip _ _ hl ht
  | docNew _ t _ _ hl ht hd hc =>
    rw [← List.append_assoc]
    refine Trans.docNew line t _ _ hl ht hd ?_
    rcases hc with h | ⟨h, p, l, rfl, hne⟩
    · exact Or.inl h
    · exact Or.inr ⟨h, pre ++ p, l, by simp, hne⟩
  | codeNew _ _ _ hl ht hd hc =>
    rw [← List.append_assoc]
    refine Trans.codeNew line _ _ hl ht hd ?_
    rcases hc with h | ⟨h, p, l, rfl, hne⟩
    · exact Or.inl h
    · exact Or.inr ⟨h, pre ++ p, l, by simp, hne⟩
  | docAdd _ t p l _ hl ht hd hc =>
    rw [← List.append_assoc, ← List.append_assoc]
    exact Trans.docAdd line t (pre ++ p) l ls hl ht hd hc
  | codeAdd _ p l _ hl ht hd hc =>
    rw [← List.append_assoc, ← List.append_assoc]
    exact Trans.codeAdd line (pre ++ p) l ls hl ht hd hc

/-- A run can be made after any list of earlier segments. -/
theorem Run.frame_run (pre : List Seg) {lines : List Str} {st st' : List Seg × LastSeen}
    (r : Run lines st st') (hok : Ok st) : Run lines (pre ++ st.1, st.2) (pre ++ st'.1, st'.2) := by
  induction r with
  | nil st => exact Run.nil _
  | cons t _ ih => exact Run.cons (t.frame pre hok) (ih (t.ok hok))

/-- C8: for all sequences of lines `a` and `b`, `parseSegs` returns segments on
`a`, on `b` and on `a ++ [""] ++ b`, and the raw texts `(Docs, Code)` of the
segments of `a ++ [""] ++ b` are those of the segments of `a` followed by those
of the segments of `b`: the empty line is stored nowhere, the lines of `b` start
a new segment whatever their kind, and they change no segment of `a`. -/
theorem parseSegs_blank_boundary (a b : List Str) :
    ∃ sa sb sab, parseSegs a = some sa ∧ parseSegs b = some sb ∧
      parseSegs (a ++ [[]] ++ b) = some sab ∧
      sab.map Seg.raw = sa.map Seg.raw ++ sb.map Seg.raw := by
  obtain ⟨sta, ha, ra, _⟩ := parseSegs_run a
  obtain ⟨stb, hb, rb, _⟩ := parseSegs_run b
  have hab : scanLines ([], LastSeen.empty) (a ++ [[]] ++ b) =
      some (sta.1 ++ stb.1, stb.2) := by
    have h1 : scanLines (sta.1, LastSeen.empty) b = some (sta.1 ++ stb.1, stb.2) := by
      have := (rb.frame_run sta.1 ok_init).scanLines_eq
      simpa using this
    rw [List.append_assoc, scanLines_append, ra.scanLines_eq]
    simp [scanLines_cons, scanLine, h1]
  refine ⟨_, _, postPass (sta.1 ++ stb.1), ha, hb, by rw [parseSegs, hab]; rfl, ?_⟩
  simp [postPass_raw]

/-! ## The flags -/

/-- C9: on every input `parseSegs` returns segments, and the segment at index
`i` has `CodeEmpty` set exactly when its `Code` is empty and `CodeLeading` set
exactly when `i < length - 1`; so `CodeLeading` is unset exactly at the last
index. -/
theorem parseSegs_flags (lines : List Str) :
    ∃ segs, parseSegs lines = some segs ∧
      ∀ (i : Nat) (s : Seg), segs[i]? = some s →
        (s.CodeEmpty = true ↔ s.Code = []) ∧
        (s.CodeLeading = true ↔ (i : Int) < (segs.length : Int) - 1) ∧
        (s.CodeLeading = false ↔ i + 1 = segs.length) := by
  obtain ⟨st, h, _, _⟩ := parseSegs_run lines
  refine ⟨_, h, ?_⟩
  intro i s hs
  have hlt : i < st.1.length := by
    have := (List.getElem?_eq_some_iff.1 hs).1
    simpa [postPass_length] using this
  rw [postPass_getElem st.1 i hlt] at hs
  cases hs
  simp only [setFlags, postPass_length, decide_eq_true_eq, decide_eq_false_iff_not, true_and]
  omega

/-- C9 on the lines "// a", "b", "", "// c": two segments, the second without
code. -/
theorem parseSegs_flags_witness :
    ∃ segs, parseSegs ["// a".toList, "b".toList, [], "// c".toList] = some segs ∧
      ∀ (i : Nat) (s : Seg), segs[i]? = some s →
        (s.CodeEmpty = true ↔ s.Code = []) ∧
        (s.CodeLeading = true ↔ (i : Int) < (segs.length : Int) - 1) ∧
        (s.CodeLeading = false ↔ i + 1 = segs.length) :=
  parseSegs_flags ["// a".toList, "b".toList, [], "// c".toList]

/-! ## Classification of a line -/

theorem docLineSpec_iff (line rest : Str) :
    DocLineSpec line rest ↔ docsPatRest line = some rest :=
  (docsPatRest_eq_some_iff line rest).symm

/-- C10: for a line that is neither empty nor skipped, `docsPat` matches it
exactly when it is zero or more whitespace characters, then `//` or `#`, then a
whitespace character, then any text; in that case the text stored for it (the
`Docs` of the segment that the line gives on its own) is that remaining text,
which is a suffix of the line; and a line that is not of this form is code,
stored whole (as the `Code` of the segment that the line gives on its own). -/
theorem classify_line (line : Str) (hl : line ≠ []) (ht : todoPatMatchString line = false) :
    (docsPatMatchString line = true ↔ ∃ rest, DocLineSpec line rest) ∧
    (∀ rest, DocLineSpec line rest →
      storedText line = rest ∧ rest <:+ line ∧
      parseSegs [line] =
        some [{ Docs := rest, DocsRendered := [], Code := [], CodeRendered := [],
                CodeEmpty := true, CodeLeading := false }]) ∧
    ((¬ ∃ rest, DocLineSpec line rest) →
      storedText line = line ∧
      parseSegs [line] =
        some [{ Docs := [], DocsRendered := [], Code := line, CodeRendered := [],
                CodeEmpty := false, CodeLeading := false }]) := by
  refine ⟨?_, ?_, ?_⟩
  · simp only [docLineSpec_iff, docsPatMatchString, Option.isSome_iff_exists]
  · intro rest h
    rw [docLineSpec_iff] at h
    exact ⟨by simp [storedText, docsPatMatchString, docsPatReplaceAllString, h],
      docsPatRest_suffix h, parseSegs_single_doc hl ht h⟩
  · intro h
    have hd : docsPatRest line = none := by
      cases hd : docsPatRest line with
      | none => rfl
      | some t => exact absurd ⟨t, (docLineSpec_iff line t).2 hd⟩ h
    exact ⟨by simp [storedText, docsPatMatchString, hd], parseSegs_single_code hl ht hd⟩

/-- C10 on the documentation line " \t#  x" (two whitespace characters after
the marker: one is removed, one is kept) and on the code line "//x". -/
theorem classify_line_witness :
    (docsPatMatchString " \t#  x".toList = true ∧ storedText " \t#  x".toList = " x".toList) ∧
    (docsPatMatchString "//x".toList = false ∧ storedText "//x".toList = "//x".toList) :=
  ⟨⟨by decide, ((classify_line " \t#  x".toList (by decide) (by decide)).2.1 " x".toList
      ⟨" \t".toList, "#".toList, ' ', by decide, by decide, Or.inr rfl, by decide⟩).1⟩,
   ⟨by decide, ((classify_line "//x".toList (by decide) (by decide)).2.2 (by
      rw [← (classify_line "//x".toList (by decide) (by decide)).1]; decide)).1⟩⟩

/-! ## The lexer -/

theorem hasSuffix_iff (s suffix : Str) : hasSuffix s suffix = true ↔ suffix <:+ s := by
  simp [hasSuffix]

/-- No path ends both in ".go" and in ".sh". -/
theorem not_go_and_sh (path : Str) (hgo : ".go".toList <:+ path) (hsh : ".sh".toList <:+ path) :
    False := by
  have h := List.suffix_of_suffix_length_le hgo hsh (by decide)
  have h2 := h.eq_of_length (by decide)
  revert h2
  decide

theorem whichLexer_of_go {path : Str} (h : ".go".toList <:+ path) :
    whichLexer path = some "go".toList := by
  unfold whichLexer
  rw [if_pos ((hasSuffix_iff _ _).2 h)]

theorem whichLexer_of_sh {path : Str} (h : ".sh".toList <:+ path) :
    whichLexer path = some "console".toList := by
  have hgo : ¬ hasSuffix path ".go".toList = true :=
    fun hgo => not_go_and_sh path ((hasSuffix_iff _ _).1 hgo) h
  unfold whichLexer
  rw [if_neg hgo, if_pos ((hasSuffix_iff _ _).2 h)]

/-- C12: `whichLexer` returns "go" for every path that ends in ".go", "console"
for every path that ends in ".sh", and it fails exactly on the paths that end in
neither. -/
theorem whichLexer_spec (path : Str) :
    (".go".toList <:+ path → whichLexer path = some "go".toList) ∧
    (".sh".toList <:+ path → whichLexer path = some "console".toList) ∧
    (whichLexer path = none ↔ ¬ ".go".toList <:+ path ∧ ¬ ".sh".toList <:+ path) := by
  refine ⟨whichLexer_of_go, whichLexer_of_sh, ?_⟩
  unfold whichLexer
  by_cases hgo : hasSuffix path ".go".toList = true
  · rw [if_pos hgo]
    exact ⟨fun h => (by cases h), fun h => absurd ((hasSuffix_iff _ _).1 hgo) h.1⟩
  · by_cases hsh : hasSuffix path ".sh".toList = true
    · rw [if_neg hgo, if_pos hsh]
      exact ⟨fun h => (by cases h), fun h => absurd ((hasSuffix_iff _ _).1 hsh) h.2⟩
    · rw [if_neg hgo, if_neg hsh]
      exact ⟨fun _ => ⟨fun h => hgo ((hasSuffix_iff _ _).2 h),
        fun h => hsh ((hasSuffix_iff _ _).2 h)⟩, fun _ => rfl⟩

/-- C12 on the paths "examples/for/for.go", "examples/for/for.sh" and
"examples/for/for.txt". -/
theorem whichLexer_spec_witness :
    whichLexer "examples/for/for.go".toList = some "go".toList ∧
    whichLexer "examples/for/for.sh".toList = some "console".toList ∧
    whichLexer "examples/for/for.txt".toList = none :=
  ⟨(whichLexer_spec "examples/for/for.go".toList).1 (by decide),
   (whichLexer_spec "examples/for/for.sh".toList).2.1 (by decide),
   (whichLexer_spec "examples/for/for.txt".toList).2.2.2 ⟨by decide, by decide⟩⟩

/-! ## Rendering -/

/-- The segments that `parseSegs` returns have no rendered text yet. -/
theorem unrendered_step (line : Str) (st st' : List Seg × LastSeen)
    (hi : ∀ s ∈ st.1, s.DocsRendered = [] ∧ s.CodeRendered = [])
    (t : Trans line st st') :
    ∀ s ∈ st'.1, s.DocsRendered = [] ∧ s.CodeRendered = [] := by
  cases t with
  | blank => exact hi
  | skip => exact hi
  | docNew line t segs ls =>
    intro s hs
    rcases List.mem_append.1 hs with h | h
    · exact hi s h
    · simp only [List.mem_singleton] at h
      subst h
      exact ⟨rfl, rfl⟩
  | codeNew line segs ls =>
    intro s hs
    rcases List.mem_append.1 hs with h | h
    · exact hi s h
    · simp only [List.mem_singleton] at h
      subst h
      exact ⟨rfl, rfl⟩
  | docAdd line t pre l ls =>
    intro s hs
    rcases List.mem_append.1 hs with h | h
    · exact hi s (List.mem_append_left _ h)
    · simp only [List.mem_singleton] at h
      subst h
      exact hi l (by simp)
  | codeAdd line pre l ls =>
    intro s hs
    rcases List.mem_append.1 hs with h | h
    · exact hi s (List.mem_append_left _ h)
    · simp only [List.mem_singleton] at h
      subst h
      exact hi l (by simp)

theorem parseSegs_unrendered (lines : List Str) :
    ∃ segs, parseSegs lines = some segs ∧
      ∀ s ∈ segs, s.DocsRendered = [] ∧ s.CodeRendered = [] := by
  obtain ⟨st, h, r, _⟩ := parseSegs_run lines
  refine ⟨_, h, ?_⟩
  have hinv := r.invariant (fun st => ∀ s ∈ st.1, s.DocsRendered = [] ∧ s.CodeRendered = [])
    (fun _ => True) (fun line st st' _ _ hi t => unrendered_step line st st' hi t)
    (fun _ _ => trivial) ok_init (by simp)
  intro s hs
  simp only [postPass, List.mem_map] at hs
  obtain ⟨⟨i, s0⟩, hm, rfl⟩ := hs
  exact hinv s0 (List.snd_mem_of_mem_enum hm)

/-- C11: for every source path that ends in ".go" or ".sh", `parseAndRenderSegs`
returns the segments of `parseSegs`, one for one, with the same `Docs`, `Code`,
`CodeEmpty` and `CodeLeading`, with `DocsRendered` the markdown of `Docs` when
`Docs` is non-empty and "" otherwise, and with `CodeRendered` the highlighted
`Code`, for the lexer of the path, when `Code` is non-empty and "" otherwise. -/
theorem parseAndRenderSegs_spec (markdown : Str → Str) (highlight : Str → Str → Str)
    (sourcePath : Str) (lines : List Str)
    (hext : ".go".toList <:+ sourcePath ∨ ".sh".toList <:+ sourcePath) :
    ∃ segs lexer, parseSegs lines = some segs ∧ whichLexer sourcePath = some lexer ∧
      parseAndRenderSegs markdown highlight sourcePath lines =
        some (segs.map (fun s =>
          { Docs := s.Docs,
            DocsRendered := if s.Docs = [] then [] else markdown s.Docs,
            Code := s.Code,
            CodeRendered := if s.Code = [] then [] else highlight lexer s.Code,
            CodeEmpty := s.CodeEmpty,
            CodeLeading := s.CodeLeading })) := by
  obtain ⟨segs, hs, hun⟩ := parseSegs_unrendered lines
  have hlex : ∃ lexer, whichLexer sourcePath = some lexer := by
    rcases hext with h | h
    · exact ⟨_, whichLexer_of_go h⟩
    · exact ⟨_, whichLexer_of_sh h⟩
  obtain ⟨lexer, hl⟩ := hlex
  refine ⟨segs, lexer, hs, hl, ?_⟩
  simp only [parseAndRenderSegs, hs, hl, Option.bind_eq_bind, Option.some_bind, Option.pure_def,
    Option.some.injEq]
  apply List.map_congr_left
  intro s hm
  obtain ⟨h1, h2⟩ := hun s hm
  obtain ⟨d, dr, c, cr, ce, cl⟩ := s
  simp only at h1 h2
  subst h1 h2
  by_cases hd : d = [] <;> by_cases hc : c = [] <;> simp [renderSeg, hd, hc]

/-- C11 on the path "for.go" and the lines "// a", "b", "", "// c", with
renderers that put a mark in front of their input. -/
theorem parseAndRenderSegs_spec_witness :
    (".go".toList <:+ "for.go".toList ∨ ".sh".toList <:+ "for.go".toList) ∧
    parseAndRenderSegs (fun s => 'M' :: s) (fun lexer s => lexer ++ ':' :: s) "for.go".toList
        ["// a".toList, "b".toList, [], "// c".toList] =
      some [{ Docs := "a".toList, DocsRendered := "Ma".toList, Code := "\nb".toList,
              CodeRendered := "go:\nb".toList, CodeEmpty := false, CodeLeading := true },
            { Docs := "c".toList, DocsRendered := "Mc".toList, Code := [],
              CodeRendered := [], CodeEmpty := true, CodeLeading := false }] := by
  refine ⟨by decide, ?_⟩
  obtain ⟨segs, lexer, hs, hl, h⟩ := parseAndRenderSegs_spec (fun s => 'M' :: s)
    (fun lexer s => lexer ++ ':' :: s) "for.go".toList
    ["// a".toList, "b".toList, [], "// c".toList] (by decide)
  have hs2 : parseSegs ["// a".toList, "b".toList, [], "// c".toList] = _ := rfl
  have hl2 : whichLexer "for.go".toList = _ := rfl
  rw [hs2] at hs
  rw [hl2] at hl
  cases hs
  cases hl
  rw [h]
  rfl

/-! ## The cache -/

/-- The path of the cache file, spelled out. -/
theorem cachePath_eq (sha1Sum : Str → Str) (lex src : Str) :
    cachePath sha1Sum lex src =
      "/tmp/gobyexample-cache/pygmentize--l-".toList ++ (lex ++ ("--f-html-".toList ++ sha1Sum src)) := by
  simp [cachePath, cacheDir, stringsJoin, pygmentizeArg, List.intercalate, List.intersperse]

/-- C13: two calls of `cachedPygmentize` in succession, with the same tag and
text, return the same markup, and the second call neither runs the external
renderer nor changes the cache.  On a miss the first call returns the output of
the renderer, stores it under the path of the key, runs the renderer once and
changes no other entry of the cache; on a hit it returns the stored markup and
leaves the cache as it is. -/
theorem cachedPygmentize_twice (sha1Sum : Str → Str) (pipe : Str → List Str → Str → Str)
    (c : Cache) (lex src : Str) :
    (cachedPygmentize sha1Sum pipe (cachedPygmentize sha1Sum pipe c lex src).2 lex src).1 =
      (cachedPygmentize sha1Sum pipe c lex src).1 ∧
    (cachedPygmentize sha1Sum pipe (cachedPygmentize sha1Sum pipe c lex src).2 lex src).2 =
      (cachedPygmentize sha1Sum pipe c lex src).2 ∧
    (c.files (cachePath sha1Sum lex src) = none →
      (cachedPygmentize sha1Sum pipe c lex src).1 =
        pipe "/usr/local/bin/pygmentize".toList (pygmentizeArg lex) src ∧
      (cachedPygmentize sha1Sum pipe c lex src).2.files (cachePath sha1Sum lex src) =
        some (pipe "/usr/local/bin/pygmentize".toList (pygmentizeArg lex) src) ∧
      (cachedPygmentize sha1Sum pipe c lex src).2.renders = c.renders + 1 ∧
      ∀ p, p ≠ cachePath sha1Sum lex src →
        (cachedPygmentize sha1Sum pipe c lex src).2.files p = c.files p) ∧
    (∀ bytes, c.files (cachePath sha1Sum lex src) = some bytes →
      cachedPygmentize sha1Sum pipe c lex src = (bytes, c)) := by
  cases h : c.files (cachePath sha1Sum lex src) with
  | none =>
    have h1 : cachedPygmentize sha1Sum pipe c lex src =
        (pipe "/usr/local/bin/pygmentize".toList (pygmentizeArg lex) src,
          { files := fun p => if p = cachePath sha1Sum lex src then
              some (pipe "/usr/local/bin/pygmentize".toList (pygmentizeArg lex) src)
              else c.files p,
            renders := c.renders + 1 }) := by
      simp only [cachedPygmentize, h]
    have h2 : cachedPygmentize sha1Sum pipe
        { files := fun p => if p = cachePath sha1Sum lex src then
            some (pipe "/usr/local/bin/pygmentize".toList (pygmentizeArg lex) src)
            else c.files p,
          renders := c.renders + 1 } lex src =
        (pipe "/usr/local/bin/pygmentize".toList (pygmentizeArg lex) src,
          { files := fun p => if p = cachePath sha1Sum lex src then
              some (pipe "/usr/local/bin/pygmentize".toList (pygmentizeArg lex) src)
              else c.files p,
            renders := c.renders + 1 }) := by
      simp only [cachedPygmentize, if_true]
    rw [h1]
    refine ⟨by rw [h2], by rw [h2], fun _ => ⟨rfl, by simp, rfl, fun p hp => by simp [hp]⟩, ?_⟩
    intro bytes hb
    cases hb
  | some b =>
    have h1 : cachedPygmentize sha1Sum pipe c lex src = (b, c) := by
      simp only [cachedPygmentize, h]
    rw [h1]
    refine ⟨by rw [h1], by rw [h1], fun hn => (by cases hn), ?_⟩
    intro bytes hb
    cases hb
    rfl

/-- C13 on an empty cache, with a renderer that returns its input in brackets
and a one-character digest: the second call returns what the first did, and the
renderer has run once. -/
theorem cachedPygmentize_twice_witness :
    (cachedPygmentize (fun s => s.take 1) (fun _ _ s => '[' :: s ++ [']'])
      (cachedPygmentize (fun s => s.take 1) (fun _ _ s => '[' :: s ++ [']'])
        { files := fun _ => none, renders := 0 } "go".toList "x".toList).2
      "go".toList "x".toList).1 = "[x]".toList ∧
    (cachedPygmentize (fun s => s.take 1) (fun _ _ s => '[' :: s ++ [']'])
      (cachedPygmentize (fun s => s.take 1) (fun _ _ s => '[' :: s ++ [']'])
        { files := fun _ => none, renders := 0 } "go".toList "x".toList).2
      "go".toList "x".toList).2.renders = 1 := by
  have h := cachedPygmentize_twice (fun s => s.take 1) (fun _ _ s => '[' :: s ++ [']'])
    { files := fun _ => none, renders := 0 } "go".toList "x".toList
  rw [h.1, h.2.1]
  have h3 := h.2.2.1 rfl
  exact ⟨h3.1, h3.2.2.1⟩

/-- C18: when `sha1Sum` always returns 40 characters, the cache paths for two
different tags differ, whatever the texts, so a call for one tag leaves the
cache entry of any request for another tag as it was; and for one tag the
paths for two texts are equal exactly when the digests of the texts are. -/
theorem cachePath_separates (sha1Sum : Str → Str) (hlen : ∀ s, (sha1Sum s).length = 40)
    (pipe : Str → List Str → Str → Str) (c : Cache) (t1 t2 s1 s2 : Str) (hne : t1 ≠ t2) :
    cachePath sha1Sum t1 s1 ≠ cachePath sha1Sum t2 s2 ∧
    (cachedPygmentize sha1Sum pipe c t1 s1).2.files (cachePath sha1Sum t2 s2) =
      c.files (cachePath sha1Sum t2 s2) ∧
    (cachePath sha1Sum t1 s1 = cachePath sha1Sum t1 s2 ↔ sha1Sum s1 = sha1Sum s2) := by
  have hsep : cachePath sha1Sum t1 s1 ≠ cachePath sha1Sum t2 s2 := by
    intro h
    rw [cachePath_eq, cachePath_eq] at h
    have h2 := List.append_cancel_left h
    have h3 := List.append_inj' h2 (by simp [hlen])
    exact hne h3.1
  refine ⟨hsep, ?_, ?_⟩
  · cases h : c.files (cachePath sha1Sum t1 s1) with
    | none => simp [cachedPygmentize, h, hsep.symm]
    | some b => simp [cachedPygmentize, h]
  · rw [cachePath_eq, cachePath_eq]
    constructor
    · intro h
      exact List.append_cancel_left (List.append_cancel_left (List.append_cancel_left h))
    · intro h
      rw [h]

/-- C18 with a digest of forty zeros, on the tags "go" and "console". -/
theorem cachePath_separates_witness :
    (∀ s : Str, ((fun _ => List.replicate 40 '0') s : Str).length = 40) ∧
    "go".toList ≠ "console".toList ∧
    cachePath (fun _ => List.replicate 40 '0') "go".toList "x".toList ≠
      cachePath (fun _ => List.replicate 40 '0') "console".toList "x".toList :=
  ⟨fun _ => by simp, by decide,
   (cachePath_separates (fun _ => List.replicate 40 '0') (fun _ => by simp)
      (fun _ _ s => s) { files := fun _ => none, renders := 0 }
      "go".toList "console".toList "x".toList "x".toList (by decide)).1⟩

/-! ## The slug -/

/-- Replacing a one-character text replaces that character wherever it is. -/
theorem stringsReplace_char (s : Str) (a : Char) (new : Str) :
    stringsReplace s [a] new = s.flatMap (fun c => if c = a then new else [c]) := by
  unfold stringsReplace
  induction s with
  | nil => rfl
  | cons c cs ih =>
    by_cases h : c = a
    · subst h
      simp [replaceFrom, List.isPrefixOf, ih]
    · have h2 : ¬ a = c := fun e => h e.symm
      simp [replaceFrom, List.isPrefixOf, ih, h, h2]

theorem slug_char (c : Char) :
    (((if c = ' ' then ['-'] else [c]).flatMap (fun c => if c = '/' then ['-'] else [c])).flatMap
      (fun c => if c = Char.ofNat 39 then [] else [c])) =
    (if c = ' ' ∨ c = '/' then ['-'] else if c = Char.ofNat 39 then [] else [c]) := by
  by_cases h1 : c = ' '
  · subst h1
    decide
  · by_cases h2 : c = '/'
    · subst h2
      decide
    · by_cases h3 : c = Char.ofNat 39
      · subst h3
        decide
      · simp [h1, h2, h3]

/-- The three replacements of `exampleId`, as one pass over the text. -/
theorem slug_pass (l : Str) :
    stringsReplace (stringsReplace (stringsReplace l " ".toList "-".toList)
      "/".toList "-".toList) [Char.ofNat 39] [] =
    l.flatMap (fun c =>
      if c = ' ' ∨ c = '/' then ['-'] else if c = Char.ofNat 39 then [] else [c]) := by
  have e1 : " ".toList = [' '] := rfl
  have e2 : "/".toList = ['/'] := rfl
  have e3 : "-".toList = ['-'] := rfl
  rw [e1, e2, e3, stringsReplace_char, stringsReplace_char, stringsReplace_char]
  induction l with
  | nil => rfl
  | cons c cs ih =>
    rw [List.flatMap_cons, List.flatMap_append, List.flatMap_append, ih, List.flatMap_cons,
      slug_char]

/-- C14: for every example name the Id is the slug of the specification: the
name in lower case, every space and every slash turned into a hyphen and every
apostrophe removed; so no Id holds a space, a slash or an apostrophe.  "If/Else"
gives "if-else", "Switch" gives "switch", "It's Complicated" gives
"its-complicated" and "Go by Example: For" gives "go-by-example:-for". -/
theorem exampleId_spec (unicodeLower : Char → Char) :
    (∀ name : Str, exampleId unicodeLower name = slugSpec unicodeLower name ∧
      ' ' ∉ exampleId unicodeLower name ∧ '/' ∉ exampleId unicodeLower name ∧
      Char.ofNat 39 ∉ exampleId unicodeLower name) ∧
    exampleId unicodeLower "If/Else".toList = "if-else".toList ∧
    exampleId unicodeLower "Switch".toList = "switch".toList ∧
    exampleId unicodeLower "It's Complicated".toList = "its-complicated".toList ∧
    exampleId unicodeLower "Go by Example: For".toList = "go-by-example:-for".toList := by
  have hspec : ∀ name : Str, exampleId unicodeLower name = slugSpec unicodeLower name := by
    intro name
    simp only [exampleId, stringsToLower, slugSpec]
    exact slug_pass _
  refine ⟨fun name => ⟨hspec name, ?_⟩, rfl, rfl, rfl, rfl⟩
  rw [hspec name]
  have hmem : ∀ b, b ∈ slugSpec unicodeLower name →
      b ≠ ' ' ∧ b ≠ '/' ∧ b ≠ Char.ofNat 39 := by
    intro b hb
    simp only [slugSpec, List.mem_flatMap] at hb
    obtain ⟨a, _, hba⟩ := hb
    by_cases h1 : a = ' ' ∨ a = '/'
    · rw [if_pos h1, List.mem_singleton] at hba
      subst hba
      decide
    · rw [if_neg h1] at hba
      by_cases h3 : a = Char.ofNat 39
      · rw [if_pos h3] at hba
        cases hba
      · rw [if_neg h3, List.mem_singleton] at hba
        subst hba
        exact ⟨fun e => h1 (Or.inl e), fun e => h1 (Or.inr e), h3⟩
  exact ⟨fun h => (hmem _ h).1 rfl, fun h => (hmem _ h).2.1 rfl, fun h => (hmem _ h).2.2 rfl⟩

/-! ## The list of examples -/

/-- The test `(exampleName != "") && !strings.HasPrefix(exampleName, "#")`. -/
theorem addExample_skip {env : Env} {examples : List Example} {name : Str}
    (h : ¬ (name ≠ [] ∧ ¬ "#".toList.isPrefixOf name)) :
    addExample env examples name = some examples := by
  unfold addExample
  rw [if_neg h]
  rfl

theorem addExample_keep {env : Env} {examples res : List Example} {name : Str}
    (h : name ≠ [] ∧ ¬ "#".toList.isPrefixOf name)
    (hres : addExample env examples name = some res) :
    ∃ segs, res = examples ++
      [{ Id := exampleId env.unicodeLower name, Name := name, Segs := segs,
         NextExample := none }] := by
  unfold addExample at hres
  rw [if_pos h] at hres
  have hres2 : (env.glob
      ("examples/".toList ++ exampleId env.unicodeLower name ++ "/*".toList)).bind
      (fun sourcePaths => (exampleSegs env sourcePaths).bind
        (fun segs => some (examples ++
          [{ Id := exampleId env.unicodeLower name, Name := name, Segs := segs,
             NextExample := none }]))) = some res := hres
  generalize env.glob
    ("examples/".toList ++ exampleId env.unicodeLower name ++ "/*".toList) = g at hres2
  cases g with
  | none => cases hres2
  | some sourcePaths =>
    simp only [Option.some_bind] at hres2
    generalize exampleSegs env sourcePaths = o at hres2
    cases o with
    | none => cases hres2
    | some segs =>
      simp only [Option.some_bind, Option.some.injEq] at hres2
      exact ⟨segs, hres2.symm⟩

/-- The first loop of `parseExamples` keeps what it has, and adds one example,
with no successor yet, for every name that is neither empty nor a comment. -/
theorem addExamples_spec (env : Env) (names : List Str) :
    ∀ acc res : List Example, names.foldlM (addExample env) acc = some res →
      res.map Example.Name =
        acc.map Example.Name ++
          names.filter (fun n => decide (n ≠ []) && !"#".toList.isPrefixOf n) ∧
      ((∀ e ∈ acc, e.NextExample = none) → ∀ e ∈ res, e.NextExample = none) := by
  induction names with
  | nil =>
    intro acc res h
    simp only [List.foldlM_nil, Option.pure_def, Option.some.injEq] at h
    subst h
    simp
  | cons name names ih =>
    intro acc res h
    rw [List.foldlM_cons] at h
    by_cases hc : name ≠ [] ∧ ¬ "#".toList.isPrefixOf name
    · cases ha : addExample env acc name with
      | none => simp [ha] at h
      | some acc1 =>
        rw [ha] at h
        obtain ⟨segs, rfl⟩ := addExample_keep hc ha
        obtain ⟨h1, h2⟩ := ih _ res h
        have hb : "#".toList.isPrefixOf name = false := Bool.eq_false_iff.2 hc.2
        have hf : (decide (name ≠ []) && !"#".toList.isPrefixOf name) = true := by
          rw [hb]
          simp [hc.1]
        refine ⟨?_, fun hacc => h2 ?_⟩
        · rw [h1, List.filter_cons, if_pos hf]
          simp
        · intro e he
          rcases List.mem_append.1 he with he | he
          · exact hacc e he
          · simp only [List.mem_singleton] at he
            subst he
            rfl
    · rw [addExample_skip hc] at h
      obtain ⟨h1, h2⟩ := ih acc res h
      have hf : ¬ (decide (name ≠ []) && !"#".toList.isPrefixOf name) = true := by
        intro hf
        rw [Bool.and_eq_true] at hf
        refine hc ⟨of_decide_eq_true hf.1, fun hb => ?_⟩
        rw [hb] at hf
        exact absurd hf.2 (by decide)
      refine ⟨?_, h2⟩
      rw [h1, List.filter_cons, if_neg hf]

theorem parseExamples_eq (env : Env) (names : List Str) :
    parseExamples env names =
      (names.foldlM (addExample env) []).map (fun examples =>
        examples.enum.map (fun p => linkExample examples.length p.1 p.2)) := by
  unfold parseExamples
  cases names.foldlM (addExample env) [] <;> rfl

theorem linkExample_name (n i : Nat) (e : Example) : (linkExample n i e).Name = e.Name := by
  unfold linkExample
  split <;> rfl

theorem link_names (examples : List Example) :
    (examples.enum.map (fun p => linkExample examples.length p.1 p.2)).map Example.Name =
      examples.map Example.Name := by
  rw [List.map_map]
  have h : (Example.Name ∘ fun p : Nat × Example => linkExample examples.length p.1 p.2) =
      Example.Name ∘ Prod.snd := by
    funext p
    exact linkExample_name _ _ _
  rw [h, ← List.map_map, List.enum_map_snd]

/-- C16: whenever `parseExamples` returns a list, the names of its examples are,
in order and unchanged, the lines of the example list that are not empty and do
not begin with "#", duplicates included. -/
theorem parseExamples_names (env : Env) (names : List Str) (examples : List Example)
    (h : parseExamples env names = some examples) :
    examples.map Example.Name =
      names.filter (fun n => decide (n ≠ []) && !"#".toList.isPrefixOf n) := by
  rw [parseExamples_eq] at h
  cases hf : names.foldlM (addExample env) [] with
  | none => simp [hf] at h
  | some res =>
    rw [hf] at h
    simp only [Option.map_some', Option.some.injEq] at h
    subst h
    rw [link_names]
    simpa using (addExamples_spec env names [] res hf).1

/-- C16 on the list "# Basics", "If/Else", "", "Switch", "If/Else", in an
environment where every source file is found and read. -/
theorem parseExamples_names_witness :
    ∃ examples, parseExamples testEnv ["# Basics".toList, "If/Else".toList, [],
        "Switch".toList, "If/Else".toList] = some examples ∧
      examples.map Example.Name = ["If/Else".toList, "Switch".toList, "If/Else".toList] :=
  ⟨_, rfl, parseExamples_names testEnv ["# Basics".toList, "If/Else".toList, [],
    "Switch".toList, "If/Else".toList] _ rfl⟩

/-- A source path that cannot be read makes `parseExamples` fail, as the panic
of `mustReadFile` does, even when the path ends in ".go". -/
theorem parseExamples_unreadable :
    parseExamples dirEnv ["For".toList] = none := by
  rfl

/-- C15: in the list that `parseExamples` returns, the `NextExample` of the
example at index `i` points, for `i < length - 1`, to the example at index
`i + 1` of the same list, and the `NextExample` of the last example is unset. -/
theorem parseExamples_chain (env : Env) (names : List Str) (examples : List Example)
    (h : parseExamples env names = some examples) (i : Nat) (e : Example)
    (he : examples[i]? = some e) :
    (i + 1 < examples.length →
      e.NextExample = some (i + 1) ∧ e.NextExample.bind (deref examples) = examples[i + 1]?) ∧
    (i + 1 = examples.length → e.NextExample = none) := by
  rw [parseExamples_eq] at h
  cases hf : names.foldlM (addExample env) [] with
  | none => simp [hf] at h
  | some res =>
    rw [hf] at h
    simp only [Option.map_some', Option.some.injEq] at h
    have hnone := (addExamples_spec env names [] res hf).2 (by simp)
    have hlen : examples.length = res.length := by rw [← h]; simp
    have hi : i < res.length := by
      rw [← hlen]
      exact (List.getElem?_eq_some_iff.1 he).1
    have hget : examples[i]? = some (linkExample res.length i res[i]) := by
      rw [← h]
      simp [List.getElem?_enum, List.getElem?_eq_getElem hi]
    rw [hget] at he
    cases he
    have hn : res[i].NextExample = none := hnone _ (List.getElem_mem hi)
    constructor
    · intro hlt
      have hc : (i : Int) < (res.length : Int) - 1 := by omega
      have hnext : (linkExample res.length i res[i]).NextExample = some (i + 1) := by
        unfold linkExample
        rw [if_pos hc]
      exact ⟨hnext, by rw [hnext]; rfl⟩
    · intro heq
      have hc : ¬ (i : Int) < (res.length : Int) - 1 := by omega
      unfold linkExample
      rw [if_neg hc]
      exact hn

/-- C15 on the list "If/Else", "Switch", "For": the first example points to the
second, and the last one has no successor. -/
theorem parseExamples_chain_witness :
    ∃ examples e0 e2, parseExamples testEnv ["If/Else".toList, "Switch".toList, "For".toList]
        = some examples ∧ examples.length = 3 ∧
      examples[0]? = some e0 ∧ e0.NextExample = some 1 ∧
      examples[2]? = some e2 ∧ e2.NextExample = none := by
  have h : ∃ examples, parseExamples testEnv
      ["If/Else".toList, "Switch".toList, "For".toList] = some examples ∧
      examples.length = 3 := ⟨_, rfl, rfl⟩
  obtain ⟨examples, h, hlen⟩ := h
  have h0 : ∃ e0, examples[0]? = some e0 := ⟨examples[0], List.getElem?_eq_getElem (by omega)⟩
  have h2 : ∃ e2, examples[2]? = some e2 := ⟨examples[2], List.getElem?_eq_getElem (by omega)⟩
  obtain ⟨e0, he0⟩ := h0
  obtain ⟨e2, he2⟩ := h2
  exact ⟨examples, e0, e2, h, hlen, he0,
    ((parseExamples_chain testEnv _ examples h 0 e0 he0).1 (by omega)).1,
    he2, (parseExamples_chain testEnv _ examples h 2 e2 he2).2 (by omega)⟩

/-! ## The segmenter never fails -/

/-- A transition leaves the slice empty exactly when the slice was empty and
the line is empty or skipped. -/
theorem Trans.nil_iff {line : Str} {st st' : List Seg × LastSeen} (t : Trans line st st') :
    st'.1 = [] ↔ st.1 = [] ∧ (line = [] ∨ todoPatMatchString line = true) := by
  cases t with
  | blank => simp
  | skip line st hl ht => simp [ht]
  | docNew line t segs ls hl ht hd => simp [hl, ht]
  | docAdd line t pre l ls hl ht hd => simp
  | codeNew line segs ls hl ht hd => simp [hl, ht]
  | codeAdd line pre l ls hl ht hd => simp

theorem Run.nil_iff_run {lines : List Str} {st st' : List Seg × LastSeen} (r : Run lines st st') :
    st'.1 = [] ↔ st.1 = [] ∧ ∀ l ∈ lines, l = [] ∨ todoPatMatchString l = true := by
  induction r with
  | nil st => simp
  | cons t _ ih =>
    rw [ih, t.nil_iff]
    simp only [List.mem_cons, forall_eq_or_imp]
    tauto

/-- C17: `parseSegs` never fails.  After every prefix of the input the scanning
loop is in a state where `lastSeen` is "docs" or "code" only if the slice holds
a segment, so no `segs[len(segs)-1]` is out of range; `parseSegs` returns
segments on every input; and it returns none exactly when every line is empty
or matched by `todoPat`. -/
theorem parseSegs_never_fails (lines : List Str) :
    (∀ pre, pre <+: lines →
      ∃ st, scanLines ([], LastSeen.empty) pre = some st ∧
        (st.2 ≠ LastSeen.empty → st.1 ≠ [])) ∧
    ∃ segs, parseSegs lines = some segs ∧
      (segs = [] ↔ ∀ l ∈ lines, l = [] ∨ todoPatMatchString l = true) := by
  constructor
  · intro pre _
    obtain ⟨st, h, _, ok⟩ := scanLines_run pre _ ok_init
    refine ⟨st, h, fun hne => ?_⟩
    rcases ok with h1 | h1
    · exact absurd h1 hne
    · exact h1
  · obtain ⟨st, h, r, _⟩ := parseSegs_run lines
    refine ⟨_, h, ?_⟩
    have h1 : postPass st.1 = [] ↔ st.1 = [] := by
      rw [← List.length_eq_zero, postPass_length, List.length_eq_zero]
    rw [h1, r.nil_iff_run]
    simp

/-- C17 on the lines "", "// todo: a", "": no segment; and on the lines "",
"x": one segment. -/
theorem parseSegs_never_fails_witness :
    parseSegs [[], "// todo: a".toList, []] = some [] ∧
    ∃ segs, parseSegs [[], "x".toList] = some segs ∧ segs ≠ [] := by
  obtain ⟨segs, h, hiff⟩ := (parseSegs_never_fails [[], "// todo: a".toList, []]).2
  obtain ⟨segs2, h2, hiff2⟩ := (parseSegs_never_fails [[], "x".toList]).2
  refine ⟨?_, segs2, h2, fun hn => ?_⟩
  · rw [h, hiff.2 (by decide)]
  · have := hiff2.1 hn
    revert this
    decide

/-! ## Documentation followed by code -/

theorem joinLines_cons (x : Str) (xs : List Str) :
    joinLines (x :: xs) = x ++ (xs.map (fun t => '\n' :: t)).flatten := by
  induction xs generalizing x with
  | nil => simp [joinLines, stringsJoin, List.intercalate, List.intersperse]
  | cons y ys ih =>
    have h := ih y
    simp only [joinLines, stringsJoin, List.intercalate] at h ⊢
    simp only [List.intersperse, List.flatten_cons, List.map_cons, h]
    simp

theorem Run.append_run {a b : List Str} {st st1 st2 : List Seg × LastSeen}
    (r1 : Run a st st1) (r2 : Run b st1 st2) : Run (a ++ b) st st2 := by
  induction r1 with
  | nil st => exact r2
  | cons t _ ih => exact Run.cons t (ih r2)

/-- Documentation lines that follow a documentation line are appended to the
`Docs` of the open segment. -/
theorem run_docs (ds : List Str)
    (hd : ∀ l ∈ ds, l ≠ [] ∧ todoPatMatchString l = false ∧ docsPatMatchString l = true) :
    ∀ (pre : List Seg) (l : Seg), Run ds (pre ++ [l], LastSeen.docs)
      (pre ++ [{ l with Docs := l.Docs ++
        (ds.map (fun d => '\n' :: docsPatReplaceAllString d)).flatten }], LastSeen.docs) := by
  induction ds with
  | nil =>
    intro pre l
    simp only [List.map_nil, List.flatten_nil, List.append_nil]
    exact Run.nil _
  | cons d ds ih =>
    intro pre l
    obtain ⟨hl, ht, hm⟩ := hd d (List.mem_cons_self _ _)
    obtain ⟨t, hrest⟩ := Option.isSome_iff_exists.1 hm
    have hrep : docsPatReplaceAllString d = t := by simp [docsPatReplaceAllString, hrest]
    have step := Trans.docAdd d t pre l LastSeen.docs hl ht hrest (Or.inl rfl)
    have rest := ih (fun x hx => hd x (List.mem_cons_of_mem _ hx)) pre
      { l with Docs := l.Docs ++ '\n' :: t }
    simp only [List.map_cons, List.flatten_cons, hrep]
    simp only [List.append_assoc, List.cons_append] at rest
    exact Run.cons step rest

/-- Code lines that follow a code line are appended to the `Code` of the open
segment. -/
theorem run_codes (cs : List Str)
    (hc : ∀ l ∈ cs, l ≠ [] ∧ todoPatMatchString l = false ∧ docsPatMatchString l = false) :
    ∀ (pre : List Seg) (l : Seg), Run cs (pre ++ [l], LastSeen.code)
      (pre ++ [{ l with Code := l.Code ++
        (cs.map (fun c => '\n' :: c)).flatten }], LastSeen.code) := by
  induction cs with
  | nil =>
    intro pre l
    simp only [List.map_nil, List.flatten_nil, List.append_nil]
    exact Run.nil _
  | cons c cs ih =>
    intro pre l
    obtain ⟨hl, ht, hm⟩ := hc c (List.mem_cons_self _ _)
    have hrest : docsPatRest c = none := by
      cases h : docsPatRest c with
      | none => rfl
      | some t => simp [docsPatMatchString, h] at hm
    have step := Trans.codeAdd c pre l LastSeen.code hl ht hrest (Or.inl rfl)
    have rest := ih (fun x hx => hc x (List.mem_cons_of_mem _ hx)) pre
      { l with Code := l.Code ++ '\n' :: c }
    simp only [List.map_cons, List.flatten_cons]
    simp only [List.append_assoc, List.cons_append] at rest
    exact Run.cons step rest

/-- C19: on one or more documentation lines directly followed by one or more
code lines, none of them empty or skipped, `parseSegs` returns exactly one
segment; its `Docs` is the stripped documentation lines joined by newlines and
its `Code` is a newline followed by the code lines joined by newlines. -/
theorem parseSegs_docs_then_code (docs codes : List Str) (hd0 : docs ≠ []) (hc0 : codes ≠ [])
    (hd : ∀ l ∈ docs, l ≠ [] ∧ todoPatMatchString l = false ∧ docsPatMatchString l = true)
    (hc : ∀ l ∈ codes, l ≠ [] ∧ todoPatMatchString l = false ∧ docsPatMatchString l = false) :
    parseSegs (docs ++ codes) =
      some [{ Docs := joinLines (docs.map docsPatReplaceAllString), DocsRendered := [],
              Code := '\n' :: joinLines codes, CodeRendered := [],
              CodeEmpty := false, CodeLeading := false }] := by
  obtain ⟨d, ds, rfl⟩ := List.exists_cons_of_ne_nil hd0
  obtain ⟨c, cs, rfl⟩ := List.exists_cons_of_ne_nil hc0
  obtain ⟨hl, ht, hm⟩ := hd d (List.mem_cons_self _ _)
  obtain ⟨t, hrest⟩ := Option.isSome_iff_exists.1 hm
  have hrep : docsPatReplaceAllString d = t := by simp [docsPatReplaceAllString, hrest]
  obtain ⟨hlc, htc, hmc⟩ := hc c (List.mem_cons_self _ _)
  have hrestc : docsPatRest c = none := by
    cases h : docsPatRest c with
    | none => rfl
    | some t => simp [docsPatMatchString, h] at hmc
  have r1 : Run [d] ([], LastSeen.empty) ([] ++ [mkSeg t []], LastSeen.docs) :=
    Run.cons (Trans.docNew d t [] _ hl ht hrest (Or.inl rfl)) (Run.nil _)
  have r2 := run_docs ds (fun x hx => hd x (List.mem_cons_of_mem _ hx)) [] (mkSeg t [])
  have r3 : Run [c] ([] ++ [{ mkSeg t [] with Docs := (mkSeg t []).Docs ++
        (ds.map (fun d => '\n' :: docsPatReplaceAllString d)).flatten }], LastSeen.docs) _ :=
    Run.cons (Trans.codeAdd c [] _ LastSeen.docs hlc htc hrestc (Or.inr ⟨rfl, rfl⟩)) (Run.nil _)
  have r4 := run_codes cs (fun x hx => hc x (List.mem_cons_of_mem _ hx)) []
    { mkSeg t [] with
      Docs := (mkSeg t []).Docs ++ (ds.map (fun d => '\n' :: docsPatReplaceAllString d)).flatten,
      Code := [] ++ '\n' :: c }
  have r := ((r1.append_run r2).append_run r3).append_run r4
  have e : [d] ++ ds ++ [c] ++ cs = d :: ds ++ c :: cs := by simp
  rw [e] at r
  rw [parseSegs, r.scanLines_eq]
  simp [postPass, setFlags, mkSeg, List.enum, List.enumFrom, joinLines_cons, hrep]
  rfl

/-- C19 on the lines "// a", "# b", "c", "d". -/
theorem parseSegs_docs_then_code_witness :
    parseSegs ["// a".toList, "# b".toList, "c".toList, "d".toList] =
      some [{ Docs := "a\nb".toList, DocsRendered := [], Code := "\nc\nd".toList,
              CodeRendered := [], CodeEmpty := false, CodeLeading := false }] :=
  parseSegs_docs_then_code ["// a".toList, "# b".toList] ["c".toList, "d".toList]
    (by decide) (by decide) (by decide) (by decide)

/-! ## Coverage, kind by kind -/

theorem removeNl_eq_self {s : Str} (h : '\n' ∉ s) : removeNl s = s := by
  unfold removeNl
  rw [List.filter_eq_self]
  intro c hc
  have : c ≠ '\n' := fun e => h (e ▸ hc)
  simpa using this

theorem mem_storedText {line : Str} {c : Char} (h : c ∈ storedText line) : c ∈ line := by
  unfold storedText at h
  split at h
  · cases hr : docsPatRest line with
    | none => simpa [docsPatReplaceAllString, hr] using h
    | some t =>
      have ht : c ∈ t := by simpa [docsPatReplaceAllString, hr] using h
      exact (docsPatRest_suffix hr).subset ht
  · exact h

theorem texts_no_nl {lines : List Str} (hnl : ∀ l ∈ lines, '\n' ∉ l) (p : Str → Bool) :
    '\n' ∉ ((lines.filter p).map storedText).flatten := by
  intro h
  simp only [List.mem_flatten, List.mem_map, List.mem_filter] at h
  obtain ⟨_, ⟨l, ⟨hl, _⟩, rfl⟩, hc⟩ := h
  exact hnl l hl (mem_storedText hc)

/-- C20: for every sequence of input lines none of which contains a newline
character, `parseSegs` returns segments such that deleting the newline
characters from the concatenation of their `Code`, in segment order, gives the
concatenation, in input order, of the non-empty, non-skipped code lines; and
deleting them from the concatenation of their `Docs` gives the concatenation of
the stripped texts of the non-empty, non-skipped documentation lines. -/
theorem parseSegs_per_kind (lines : List Str) (hnl : ∀ l ∈ lines, '\n' ∉ l) :
    ∃ segs, parseSegs lines = some segs ∧
      removeNl (segs.map Seg.Code).flatten = (codeTexts lines).flatten ∧
      removeNl (segs.map Seg.Docs).flatten = (docTexts lines).flatten := by
  obtain ⟨st, h, r, _⟩ := parseSegs_run lines
  refine ⟨_, h, ?_⟩
  rw [postPass_docs, postPass_code]
  obtain ⟨h1, h2⟩ := r.texts_run
  have e1 : removeNl (docTexts lines).flatten = (docTexts lines).flatten :=
    removeNl_eq_self (texts_no_nl hnl _)
  have e2 : removeNl (codeTexts lines).flatten = (codeTexts lines).flatten :=
    removeNl_eq_self (texts_no_nl hnl _)
  rw [e1] at h1
  rw [e2] at h2
  constructor
  · simpa [removeNl] using h2
  · simpa [removeNl] using h1

/-- C20 on the lines "x", "// y", "z", "", "// todo: w", "# v", "u". -/
theorem parseSegs_per_kind_witness :
    (∀ l ∈ ["x".toList, "// y".toList, "z".toList, [], "// todo: w".toList, "# v".toList,
        "u".toList], '\n' ∉ l) ∧
    ∃ segs, parseSegs ["x".toList, "// y".toList, "z".toList, [], "// todo: w".toList,
        "# v".toList, "u".toList] = some segs ∧
      removeNl (segs.map Seg.Code).flatten = "xzu".toList ∧
      removeNl (segs.map Seg.Docs).flatten = "yv".toList :=
  ⟨by decide, parseSegs_per_kind _ (by decide)⟩

end GoByExample
